import Mathlib

/-!
Verification of the Diablo-1-style dungeon generator
(`diablo1_dungeon_generation.py`).

The Python program is shallowly embedded: the mutable `Tile` grid becomes a
structure `World` holding a total tile-valued function on integer coordinates,
list indexing `world[y][x]` (which in Python wraps negative indices) becomes
access through `pyIdx`, the global `random` stream becomes an explicit stream
of naturals threaded through the state, and the unbounded `while` loops
(`pathable`, `add_wall`, `try_generation`, `add_rooms`) become fuel-bounded
recursions whose fuel is either proved sufficient or universally quantified.
-/

/-- Position on the grid: `(x, y)` integer coordinates, as in the Python
`Tile.x` / `Tile.y` fields. -/
abbrev Pos := ℤ × ℤ

/-- One tile of the world.  Field defaults mirror the Python `Tile` dataclass
defaults: `visited=False`, `value=15`, all flags `False`. -/
structure Tile where
  visited : Bool := false
  value : ℕ := 15
  is_walkable : Bool := false
  is_dividing_wall : Bool := false
  is_vertical_divider : Bool := false
  is_span_connection : Bool := false
deriving DecidableEq

/-- A freshly constructed tile, `Tile(x, y, w, h)` in Python. -/
def Tile.init : Tile := {}

/-- Python list indexing used by the generator: `lst[i]` on a list of length
`n` wraps negative indices (`lst[-1]` is the last element).  For the index
range `-n ≤ i < n` that the program actually uses, `i % n` (integer `emod`,
which is nonnegative for positive `n`) gives exactly the Python index. -/
def pyIdx (n : ℕ) (i : ℤ) : ℤ := i % (n : ℤ)

/-- The world grid: `self.world` in the Python `Generator`, a
`height × width` matrix of tiles, addressed as `world[y][x]`. -/
structure World where
  width : ℕ
  height : ℕ
  tiles : Pos → Tile

/-- `self.world[y][x]` — tile access with Python index semantics. -/
def World.get (wd : World) (x y : ℤ) : Tile :=
  wd.tiles (pyIdx wd.width x, pyIdx wd.height y)

/-- Mutating the tile object obtained from `self.world[y][x]`. -/
def World.put (wd : World) (x y : ℤ) (t : Tile) : World :=
  { wd with tiles := fun p =>
      if p = (pyIdx wd.width x, pyIdx wd.height y) then t else wd.tiles p }

/-- `(x, y)` is an actual grid coordinate (the coordinates a constructed
tile carries). -/
def inGrid (wd : World) (x y : ℤ) : Prop :=
  0 ≤ x ∧ x < wd.width ∧ 0 ≤ y ∧ y < wd.height

instance (wd : World) (x y : ℤ) : Decidable (inGrid wd x y) := by
  unfold inGrid; infer_instance

/-- All grid coordinates, as a finite set. -/
def gridPositions (wd : World) : Finset Pos :=
  Finset.Ico (0 : ℤ) wd.width ×ˢ Finset.Ico (0 : ℤ) wd.height

/-- The fresh world built in `Generator.__init__` / `Generator.reset`:
every tile is a default-constructed `Tile`. -/
def freshWorld (w h : ℕ) : World :=
  { width := w, height := h, tiles := fun _ => Tile.init }

theorem mem_gridPositions (wd : World) (p : Pos) :
    p ∈ gridPositions wd ↔ inGrid wd p.1 p.2 := by
  simp [gridPositions, inGrid, Finset.mem_product, Finset.mem_Ico, and_assoc]

theorem pyIdx_eq_of_inRange (n : ℕ) (i : ℤ) (h0 : 0 ≤ i) (h1 : i < n) :
    pyIdx n i = i :=
  Int.emod_eq_of_lt h0 h1

theorem pyIdx_mem (n : ℕ) (hn : 0 < n) (i : ℤ) :
    0 ≤ pyIdx n i ∧ pyIdx n i < n := by
  constructor
  · exact Int.emod_nonneg i (by exact_mod_cast hn.ne')
  · exact Int.emod_lt_of_pos i (by exact_mod_cast hn)

theorem World.get_eq_tiles (wd : World) (x y : ℤ) (h : inGrid wd x y) :
    wd.get x y = wd.tiles (x, y) := by
  obtain ⟨h0, h1, h2, h3⟩ := h
  simp [World.get, pyIdx_eq_of_inRange _ _ h0 h1, pyIdx_eq_of_inRange _ _ h2 h3]

theorem World.put_width (wd : World) (x y : ℤ) (t : Tile) :
    (wd.put x y t).width = wd.width := rfl

theorem World.put_height (wd : World) (x y : ℤ) (t : Tile) :
    (wd.put x y t).height = wd.height := rfl

theorem World.put_tiles_same (wd : World) (x y : ℤ) (t : Tile)
    (h : inGrid wd x y) : (wd.put x y t).tiles (x, y) = t := by
  obtain ⟨h0, h1, h2, h3⟩ := h
  simp [World.put, pyIdx_eq_of_inRange _ _ h0 h1, pyIdx_eq_of_inRange _ _ h2 h3]

theorem World.put_tiles_ne (wd : World) (x y : ℤ) (t : Tile) (q : Pos)
    (h : q ≠ (pyIdx wd.width x, pyIdx wd.height y)) :
    (wd.put x y t).tiles q = wd.tiles q := by
  simp [World.put, h]

theorem World.put_tiles_ne_of_inGrid (wd : World) (x y : ℤ) (t : Tile)
    (hxy : inGrid wd x y) (q : Pos) (h : q ≠ (x, y)) :
    (wd.put x y t).tiles q = wd.tiles q := by
  obtain ⟨h0, h1, h2, h3⟩ := hxy
  apply World.put_tiles_ne
  rwa [pyIdx_eq_of_inRange _ _ h0 h1, pyIdx_eq_of_inRange _ _ h2 h3]

/-! ## Rooms and the budding placement engine -/

/-- The `Axis` enum. -/
inductive Axis where
  | Y : Axis
  | X : Axis
deriving DecidableEq

/-- `Axis.other`. -/
def Axis.other : Axis → Axis
  | .Y => .X
  | .X => .Y

/-- The `Room` dataclass. -/
structure Room where
  x : ℤ
  y : ℤ
  width : ℤ
  height : ℤ
  world_width : ℤ
  world_height : ℤ
deriving DecidableEq

instance : Inhabited Room := ⟨⟨0, 0, 0, 0, 0, 0⟩⟩

/-- `Room.overlaps`: axis-aligned rectangle separation test. -/
def Room.overlaps (self other : Room) : Bool :=
  if self.x ≥ other.x + other.width ∨ other.x ≥ self.x + self.width then
    false
  else if self.y ≥ other.y + other.height ∨ other.y ≥ self.y + self.height then
    false
  else
    true

/-- `Room.within_bounds`: containment within a 1-tile buffer inside the
world edge.  Python chains the comparisons:
`0 < x < world_width - 1 - width` and likewise for `y`. -/
def Room.within_bounds (r : Room) : Bool :=
  decide ((0 < r.x ∧ r.x < r.world_width - 1 - r.width) ∧
          (0 < r.y ∧ r.y < r.world_height - 1 - r.height))

theorem Room.overlaps_iff (a b : Room) :
    a.overlaps b = true ↔
      (a.x < b.x + b.width ∧ b.x < a.x + a.width ∧
       a.y < b.y + b.height ∧ b.y < a.y + a.height) := by
  unfold Room.overlaps
  split_ifs with h1 h2 <;> simp <;> omega

theorem Room.overlaps_comm (a b : Room) : a.overlaps b = b.overlaps a := by
  have ha := Room.overlaps_iff a b
  have hb := Room.overlaps_iff b a
  cases h : a.overlaps b <;> cases h2 : b.overlaps a
  · rfl
  · rw [h] at ha; rw [h2] at hb; simp at ha hb; exfalso; omega
  · rw [h] at ha; rw [h2] at hb; simp at ha hb; exfalso; omega
  · rfl

/-! ## The random stream

The Python code uses the global `random` module.  We model it as an explicit
stream of naturals together with a cursor; every primitive draw consumes one
stream value.  `random.choice(seq)` picks `seq[draw mod len(seq)]` (the
stdlib picks a uniform index below the length, so every index is realised by
some stream value), and `random.choices(..., cum_weights=(75, 100))` keeps
the first alternative exactly when a uniform draw in `[0, 100)` lands below
`75`. -/
structure RNG where
  stream : ℕ → ℕ
  idx : ℕ

/-- Consume one value from the stream. -/
def RNG.draw (r : RNG) : ℕ × RNG :=
  (r.stream r.idx, { r with idx := r.idx + 1 })

/-- `random.choice(seq)` for a nonempty sequence. -/
def randomChoice {α : Type} [Inhabited α] (r : RNG) (l : List α) : α × RNG :=
  let v := r.draw.1
  (l.getD (v % l.length) default, r.draw.2)

/-- `random.choices((a, b), cum_weights=(75, 100))[0]`: keep `a` with
probability 75 percent. -/
def choose75 {α : Type} (r : RNG) (a b : α) : α × RNG :=
  let v := r.draw.1
  (if v % 100 < 75 then a else b, r.draw.2)

/-- The fixed-probability bias of `choose75`: of the 100 equally likely
residues of a draw, exactly 75 keep the first alternative. -/
theorem choose75_count :
    (Finset.univ.filter (fun v : Fin 100 => v.val < 75)).card = 75 := by
  decide

/-! ## Generator state -/

/-- The mutable `Generator` attributes: the grid, the floor-space counter,
the committed room list, the pending bud queue, plus the random stream. -/
structure GenState where
  width : ℕ
  height : ℕ
  world : World
  tries : ℕ
  floor_space : ℤ
  rooms : List Room
  rooms_to_bud : List (Room × Axis)
  rng : RNG

/-- `Generator.__init__` (without the pickled-world debug path). -/
def initState (w h : ℕ) (stream : ℕ → ℕ) : GenState :=
  { width := w, height := h, world := freshWorld w h, tries := 0,
    floor_space := 0, rooms := [], rooms_to_bud := [],
    rng := { stream := stream, idx := 0 } }

/-- `Generator.reset`: rebuild the grid, zero the floor space, drop the
rooms.  (The bud queue is not cleared by `reset` — it is already empty at
the end of every attempt because `add_rooms` drains it.) -/
def reset (s : GenState) : GenState :=
  { s with world := freshWorld s.width s.height, floor_space := 0, rooms := [] }

/-- `Generator.create_starting_rooms`: one fixed 10×10 room at (15, 20)
paired with a random starting axis (`random.choice((Axis.Y, Axis.X))`). -/
def createStartingRooms (s : GenState) : List (Room × Axis) × RNG :=
  let v := s.rng.draw.1
  let axis := [Axis.Y, Axis.X].getD (v % 2) Axis.Y
  ([(⟨15, 20, 10, 10, (s.width : ℤ), (s.height : ℤ)⟩, axis)], s.rng.draw.2)

/-- `Generator.get_new_room_coords`: the two candidate rooms flanking
`starting_room` along `axis`, with width and height each drawn from
`(2, 4, 6)`. -/
def getNewRoomCoords (r : RNG) (w h : ℕ) (starting_room : Room) (axis : Axis) :
    (Room × Room) × RNG :=
  let room_width := (randomChoice r [(2 : ℤ), 4, 6]).1
  let r1 := (randomChoice r [(2 : ℤ), 4, 6]).2
  let room_height := (randomChoice r1 [(2 : ℤ), 4, 6]).1
  let r2 := (randomChoice r1 [(2 : ℤ), 4, 6]).2
  let vertical_center := starting_room.y + starting_room.height / 2
  let horzontal_center := starting_room.x + starting_room.width / 2
  let room_x_top_and_bottom := horzontal_center - room_width / 2
  let room_y_top := starting_room.y - room_height
  let room_y_bottom := starting_room.y + starting_room.height
  let room_y_left_and_right := vertical_center - room_height / 2
  let room_x_left := starting_room.x - room_width
  let room_x_right := starting_room.x + starting_room.width
  match axis with
  | .Y =>
    ((⟨room_x_top_and_bottom, room_y_top, room_width, room_height, w, h⟩,
      ⟨room_x_top_and_bottom, room_y_bottom, room_width, room_height, w, h⟩), r2)
  | .X =>
    ((⟨room_x_left, room_y_left_and_right, room_width, room_height, w, h⟩,
      ⟨room_x_right, room_y_left_and_right, room_width, room_height, w, h⟩), r2)

/-- `Generator.add_room_candidates`: draw the bud axis (75 percent chance of
keeping the axis that was passed in), then append the two flanking
candidates for that axis (both axes when `both` is set) to the bud queue,
each carrying the drawn axis. -/
def addRoomCandidates (s : GenState) (room : Room) (axis : Axis) (both : Bool) :
    GenState :=
  let axis2 := (choose75 s.rng axis axis.other).1
  let s1 := { s with rng := (choose75 s.rng axis axis.other).2 }
  let s2 :=
    if axis2 = Axis.Y ∨ both then
      let rr := getNewRoomCoords s1.rng s1.width s1.height room Axis.Y
      { s1 with
          rng := rr.2,
          rooms_to_bud := s1.rooms_to_bud ++ [(rr.1.1, axis2), (rr.1.2, axis2)] }
    else s1
  if axis2 = Axis.X ∨ both then
    let rr := getNewRoomCoords s2.rng s2.width s2.height room Axis.X
    { s2 with
        rng := rr.2,
        rooms_to_bud := s2.rooms_to_bud ++ [(rr.1.1, axis2), (rr.1.2, axis2)] }
  else s2

/-- `Generator.try_budding`: verify the candidate (bounds, then overlap
against every committed room); on success commit it and enqueue its bud
candidates, otherwise return with the state untouched. -/
def tryBudding (s : GenState) (room : Room) (axis : Axis) : GenState :=
  if ¬ room.within_bounds then s
  else if s.rooms.any (fun existing => room.overlaps existing) then s
  else addRoomCandidates { s with rooms := s.rooms ++ [room] } room axis false

/-- The FIFO loop body of `Generator.add_rooms`: pop the front of the bud
queue and try to bud it, until the queue is empty (fuel-bounded). -/
def addRoomsLoop : ℕ → GenState → GenState
  | 0, s => s
  | fuel + 1, s =>
    match s.rooms_to_bud with
    | [] => s
    | (room, axis) :: rest =>
      addRoomsLoop fuel (tryBudding { s with rooms_to_bud := rest } room axis)

/-- `Generator.add_rooms`: seed the queue with the starting room and drain
it.  The fuel `2 + 5·width·height` over-approximates the number of queue
pops: each committed room (there are at most `width·height` of them, since
committed rooms occupy disjoint nonempty footprints) enqueues at most four
candidates, and every iteration pops one entry. -/
def addRooms (s : GenState) : GenState :=
  let starting := (createStartingRooms s).1
  addRoomsLoop (2 + 5 * s.width * s.height)
    { s with
        rng := (createStartingRooms s).2,
        rooms_to_bud := s.rooms_to_bud ++ starting }

/-! ## Marching squares -/

/-- `True` when a tile counts as open for the corner grid. -/
def tileOpen (t : Tile) : Bool := t.is_walkable || t.is_dividing_wall

/-- The corner-to-tile offsets of the first `marching_squares` loop. -/
def cornerOffsets : List (ℤ × ℤ) := [(-1, -1), (-1, 0), (0, -1), (0, 0)]

/-- The corner grid of `marching_squares`: entry `(cx, cy)` of the
`(width+1) × (height+1)` boolean grid, `true` = closed.  The computing loop
only runs over `1 ≤ cx < width`, `1 ≤ cy < height`; every other corner
keeps its initial value `True`. -/
def cornerClosed (wd : World) (cx cy : ℤ) : Bool :=
  if 1 ≤ cx ∧ cx < wd.width ∧ 1 ≤ cy ∧ cy < wd.height then
    ! cornerOffsets.any fun d => tileOpen (wd.get (cx + d.1) (cy + d.2))
  else true

/-- The tile-to-corner offsets of the second `marching_squares` loop:
top-left, top-right, bottom-right, bottom-left. -/
def msOffsets : List (ℤ × ℤ) := [(0, 0), (1, 0), (1, 1), (0, 1)]

/-- `Bool` to bit. -/
def boolBit (b : Bool) : ℕ := if b then 1 else 0

/-- The value composed for one tile by the second `marching_squares` loop:
starting from 0, for each corner in `msOffsets` order, or in the corner bit
and shift left; shift right once at the end. -/
def msValue (wd : World) (x y : ℤ) : ℕ :=
  (msOffsets.foldl
    (fun v d => (v ||| boolBit (cornerClosed wd (x + d.1) (y + d.2))) <<< 1) 0) >>> 1

/-- `Generator.marching_squares`: recompute `value` for every tile of the
grid from the corner grid (which itself depends only on the
walkable/dividing-wall flags). -/
def marchingSquares (wd : World) : World :=
  { wd with tiles := fun p =>
      if inGrid wd p.1 p.2 then { wd.tiles p with value := msValue wd p.1 p.2 }
      else wd.tiles p }

/-- The weighted-sum reading of `msValue`: top-left is the most significant
bit, then top-right, bottom-right, bottom-left. -/
theorem msValue_eq (wd : World) (x y : ℤ) :
    msValue wd x y =
      8 * boolBit (cornerClosed wd x y) +
      4 * boolBit (cornerClosed wd (x + 1) y) +
      2 * boolBit (cornerClosed wd (x + 1) (y + 1)) +
      boolBit (cornerClosed wd x (y + 1)) := by
  have h : ∀ b0 b1 b2 b3 : Bool,
      (((((0 : ℕ) ||| boolBit b0) <<< 1 ||| boolBit b1) <<< 1 ||| boolBit b2)
          <<< 1 ||| boolBit b3) <<< 1 >>> 1 =
        8 * boolBit b0 + 4 * boolBit b1 + 2 * boolBit b2 + boolBit b3 := by
    decide
  have e : msValue wd x y =
      (((((0 : ℕ) ||| boolBit (cornerClosed wd (x + 0) (y + 0))) <<< 1
          ||| boolBit (cornerClosed wd (x + 1) (y + 0))) <<< 1
          ||| boolBit (cornerClosed wd (x + 1) (y + 1))) <<< 1
          ||| boolBit (cornerClosed wd (x + 0) (y + 1))) <<< 1 >>> 1 := rfl
  simp only [add_zero] at e
  rw [e]
  exact h _ _ _ _

/-! ## Pathability: the flood fill of `Generator.pathable` -/

/-- The walkable grid positions. -/
def walkableSet (wd : World) : Finset Pos :=
  (gridPositions wd).filter fun p => (wd.tiles p).is_walkable = true

/-- All grid coordinates in the iteration order of
`for row in self.world for tile in row` (rows outermost). -/
def gridList (w h : ℕ) : List Pos :=
  (List.range h).flatMap fun y =>
    (List.range w).map fun x : ℕ => (((x : ℕ) : ℤ), ((y : ℕ) : ℤ))

/-- `floor_tiles = [tile for row in self.world for tile in row if
tile.is_walkable]`, as the list of their coordinates. -/
def floorTiles (wd : World) : List Pos :=
  (gridList wd.width wd.height).filter fun p => (wd.tiles p).is_walkable = true

/-- The four neighbour offsets of the flood fill: left, up, right, down. -/
def floodOffsets : List (ℤ × ℤ) := [(-1, 0), (0, -1), (1, 0), (0, 1)]

/-- The neighbour tile position the flood fill reads:
`self.world[tile.y + dy][tile.x + dx]` (Python index semantics). -/
def wnbr (wd : World) (p : Pos) (d : ℤ × ℤ) : Pos :=
  (pyIdx wd.width (p.1 + d.1), pyIdx wd.height (p.2 + d.2))

/-- The neighbour-pushing step of the flood fill: for each of the four
offsets in order, push the neighbour tile when it is walkable and not
visited.  Pushing conses onto the head, so the head is the last Python
`append` — the one `pop()` takes first. -/
def pushNbrs (wd : World) (visited2 : Finset Pos) (p : Pos) (stack : List Pos) :
    List Pos :=
  floodOffsets.foldl
    (fun st d =>
      let q := wnbr wd p d
      if (wd.tiles q).is_walkable = true ∧ q ∉ visited2 then q :: st else st)
    stack

/-- One generation body of the `while tile_stack:` loop of
`Generator.pathable`, fuel-bounded (`none` = fuel ran out; a sufficient
fuel bound is proved in `floodLoop_total`).  The visited flags of the tiles
become the finite set `visited`. -/
def floodLoop (wd : World) :
    ℕ → List Pos → Finset Pos → ℕ → Option (Finset Pos × ℕ)
  | 0, _, _, _ => none
  | _ + 1, [], visited, count => some (visited, count)
  | fuel + 1, p :: stack, visited, count =>
    if p ∈ visited then floodLoop wd fuel stack visited count
    else
      let visited2 := insert p visited
      floodLoop wd fuel (pushNbrs wd visited2 p stack) visited2 (count + 1)

/-- The fuel `Generator.pathable` gets; `floodLoop_total` shows it is enough
whenever every walkable tile is an actual grid tile. -/
def floodFuel (wd : World) : ℕ := 5 * (wd.width * wd.height) + 2

/-- A flood fill started from `p`, exactly as `Generator.pathable` runs it
from `floor_tiles[0]` (all visited flags freshly cleared, count 0). -/
def floodFrom (wd : World) (p : Pos) : Option (Finset Pos × ℕ) :=
  floodLoop wd (floodFuel wd) [p] ∅ 0

/-- The initial stack of `Generator.pathable`:
`[floor_tiles[0]] if floor_tiles else []`. -/
def tileStack (wd : World) : List Pos :=
  match floorTiles wd with
  | [] => []
  | t :: _ => [t]

/-- The flood fill exactly as `Generator.pathable` runs it: from the first
floor tile, all visited flags freshly cleared, count 0. -/
def floodRun (wd : World) : Option (Finset Pos × ℕ) :=
  floodLoop wd (floodFuel wd) (tileStack wd) ∅ 0

/-- `Generator.pathable`: flood fill from the first floor tile, compare the
visited count with the number of floor tiles, and raise (here: return
`Except.error`) when the map is pathable but the visited count disagrees
with the incrementally tracked `self.floor_space`. -/
def pathable (wd : World) (floor_space : ℤ) : Except String Bool :=
  match floodRun wd with
  | none => Except.error "flood fill fuel exhausted"
  | some (_, visited_count) =>
    let isPath := visited_count = (floorTiles wd).length
    if isPath ∧ (visited_count : ℤ) ≠ floor_space then
      Except.error ("visited_count (" ++ toString visited_count ++
        ") does not match floor_space (" ++ toString floor_space ++ ")")
    else
      Except.ok (decide isPath)

/-! ## Wall carving: `add_wall`, `add_walls` -/

/-- `ACCUTE_CORNERS` from the source. -/
def ACCUTE_CORNERS : List ℕ := [1, 2, 4, 8]

/-- `WALL_DIRECTIONS` from the source: the two directions a wall can grow
from each kind of acute corner. -/
def WALL_DIRECTIONS (v : ℕ) : List (ℤ × ℤ) :=
  if v = 1 then [(0, -1), (1, 0)]
  else if v = 2 then [(0, -1), (-1, 0)]
  else if v = 4 then [(0, 1), (-1, 0)]
  else if v = 8 then [(0, 1), (1, 0)]
  else []

/-- `Tile.possible_wall_directions` for the tile at `p`. -/
def possibleWallDirections (wd : World) (p : Pos) : List (Pos × (ℤ × ℤ)) :=
  if (wd.tiles p).value ∈ ACCUTE_CORNERS then
    (WALL_DIRECTIONS (wd.tiles p).value).map fun d => (p, d)
  else []

/-- The `while True:` loop of `Generator.add_wall`, fuel-bounded.  The
returned `Bool` is `true` when the loop exited through its `break` (fuel
never runs out in an actual run: the walk strictly advances along a ray and
stops at the first non-walkable tile).  `done` holds the closed spans,
`cur` the currently growing span; the Python `wall_tiles` list is
`done ++ [cur]`. -/
def addWallLoop (wd0 : World) (d : ℤ × ℤ) :
    ℕ → World → ℤ → List (List Pos) → List Pos → ℤ → ℤ →
    Bool × World × ℤ × List (List Pos) × List Pos
  | 0, wd, fs, done, cur, _, _ => (false, wd, fs, done, cur)
  | fuel + 1, wd, fs, done, cur, x, y =>
    let current := wd.get x y
    if current.is_walkable = true then
      let side1 := wd.get (x + d.2) (y + d.1)
      let side2 := wd.get (x - d.2) (y - d.1)
      if side1.is_walkable = true ∧ side2.is_walkable = true then
        let wd2 := wd.put x y
          { current with
              is_walkable := false,
              is_dividing_wall := true,
              is_vertical_divider := decide (d.2 ≠ 0) }
        addWallLoop wd0 d fuel wd2 (fs - 1) done
          (cur ++ [(pyIdx wd.width x, pyIdx wd.height y)]) (x + d.1) (y + d.2)
      else
        if cur = [] then
          addWallLoop wd0 d fuel wd fs done cur (x + d.1) (y + d.2)
        else
          addWallLoop wd0 d fuel wd fs (done ++ [cur]) [] (x + d.1) (y + d.2)
    else
      let wd2 :=
        if current.is_dividing_wall = true then
          wd.put x y { current with is_span_connection := true }
        else wd
      (true, wd2, fs, done, cur)

/-- `Generator.add_wall`: start one step past the corner tile and walk.
Returns the loop outcome together with the span list
(`wall_tiles = done ++ [cur]`). -/
def addWall (fuel : ℕ) (wd : World) (fs : ℤ) (p : Pos) (d : ℤ × ℤ) :
    Bool × World × ℤ × List (List Pos) :=
  let r := addWallLoop wd d fuel wd fs [] [] (p.1 + d.1) (p.2 + d.2)
  (r.1, r.2.1, r.2.2.1, r.2.2.2.1 ++ [r.2.2.2.2])

/-- A model of stdlib `random.sample(population, k)`: draw `k` elements
without replacement, each draw removing a stream-selected element from the
remaining population. -/
def sampleList {α : Type} [Inhabited α] (r : RNG) (pool : List α) :
    ℕ → List α × RNG
  | 0 => ([], r)
  | k + 1 =>
    if pool.length = 0 then ([], r)
    else
      let j := r.draw.1 % pool.length
      let rec2 := sampleList r.draw.2 (pool.eraseIdx j) k
      (pool.getD j default :: rec2.1, rec2.2)

/-- `Generator.add_walls`: collect every (acute corner, direction) pair in
row-major order, sample a third of them, and run `add_wall` for each,
concatenating the resulting spans.  Each `add_wall` walk gets fuel
`width + height + 2`, enough for any walk that stops at the grid border. -/
def addWalls (rng : RNG) (wd : World) (fs : ℤ) :
    RNG × World × ℤ × List (List Pos) :=
  let possible_walls := (gridList wd.width wd.height).flatMap
    fun p => possibleWallDirections wd p
  let sampled := (sampleList rng possible_walls (possible_walls.length / 3)).1
  let rng1 := (sampleList rng possible_walls (possible_walls.length / 3)).2
  let out := sampled.foldl
    (fun acc pd =>
      let r := addWall (wd.width + wd.height + 2) acc.1 acc.2.1 pd.1 pd.2
      (r.2.1, r.2.2.1, acc.2.2 ++ r.2.2.2))
    (wd, fs, ([] : List (List Pos)))
  (rng1, out.1, out.2.1, out.2.2)

/-! ## Door placement: `add_doors` -/

/-- The span-splitting inner loop of `Generator.add_doors`: cut a span at
every tile marked `is_span_connection`, keeping only the nonempty pieces
(the connection tiles themselves are dropped). -/
def splitSpanAux (wd : World) : List Pos → List Pos → List (List Pos)
  | [], cur => if cur = [] then [] else [cur]
  | t :: rest, cur =>
    if (wd.tiles t).is_span_connection = true then
      (if cur = [] then [] else [cur]) ++ splitSpanAux wd rest []
    else
      splitSpanAux wd rest (cur ++ [t])

/-- All checked spans: every span of every carve, split at its span
connections (first phase of `Generator.add_doors`). -/
def checkedSpans (wd : World) (spans : List (List Pos)) : List (List Pos) :=
  spans.flatMap fun span => splitSpanAux wd span []

/-- The door-punching loop of `Generator.add_doors`: for each checked span,
choose a tile uniformly (`random.choice(span)`), make it walkable again,
and bump the floor-space counter. -/
def doorLoop : RNG → World → ℤ → List (List Pos) → RNG × World × ℤ
  | rng, wd, fs, [] => (rng, wd, fs)
  | rng, wd, fs, span :: rest =>
    if span = [] then doorLoop rng wd fs rest
    else
      let p := span.getD (rng.draw.1 % span.length) default
      let wd2 := wd.put p.1 p.2
        { wd.get p.1 p.2 with is_walkable := true, is_dividing_wall := false }
      doorLoop rng.draw.2 wd2 (fs + 1) rest

/-- `Generator.add_doors`. -/
def addDoors (rng : RNG) (wd : World) (fs : ℤ) (spans : List (List Pos)) :
    RNG × World × ℤ :=
  doorLoop rng wd fs (checkedSpans wd spans)

/-! ## Room carving and the full pipeline -/

/-- Integer range `[a, b)` as a list, the iteration space of
`range(room.y, room.y + room.height)` and friends. -/
def rangeZ (a b : ℤ) : List ℤ :=
  (List.range (b - a).toNat).map fun i => a + (i : ℤ)

/-- The room-carving loops of `Generator.generate_world`:
`self.world[y][x].is_walkable = True` over the room footprint. -/
def carveRoom (wd : World) (r : Room) : World :=
  (rangeZ r.y (r.y + r.height)).foldl
    (fun w1 y =>
      (rangeZ r.x (r.x + r.width)).foldl
        (fun w2 x => w2.put x y { w2.get x y with is_walkable := true }) w1)
    wd

/-- Carve every committed room. -/
def carveRooms (wd : World) (rooms : List Room) : World :=
  rooms.foldl carveRoom wd

/-- `Generator.generate_world`: one full attempt.  Place rooms, add their
areas to the floor-space counter, short-circuit when that is already below
the requirement, otherwise carve, classify, add walls and doors. -/
def generateWorld (s : GenState) (required_floor_space : ℤ) : GenState :=
  let s1 := addRooms s
  let s2 := { s1 with
    floor_space := s1.floor_space +
      ((s1.rooms.map fun r => r.width * r.height).sum) }
  if s2.floor_space < required_floor_space then s2
  else
    let wd1 := carveRooms s2.world s2.rooms
    let wd2 := marchingSquares wd1
    let aw := addWalls s2.rng wd2 s2.floor_space
    let ad := addDoors aw.1 aw.2.1 aw.2.2.1 aw.2.2.2
    { s2 with world := ad.2.1, floor_space := ad.2.2, rng := ad.1 }

/-- Outcome of `Generator.try_generation`. -/
inductive TGResult where
  /-- The loop hit its `break`: an attempt was accepted. -/
  | accepted (s : GenState) : TGResult
  /-- The loop condition failed (`tries` reached `max_tries ≠ -1`). -/
  | gaveUp (s : GenState) : TGResult
  /-- `pathable` raised; the exception propagates out. -/
  | raised (msg : String) : TGResult
  /-- Fuel ran out while the loop was still retrying. -/
  | outOfFuel : TGResult

/-- The retry loop of `Generator.try_generation`, fuel-bounded: reset,
attempt, cheap floor-space rejection, then validation; break on the first
pathable attempt with enough floor space. -/
def tryGenLoop : ℕ → ℤ → ℤ → GenState → TGResult
  | 0, _, _, _ => TGResult.outOfFuel
  | fuel + 1, max_tries, required_floor_space, s =>
    if (s.tries : ℤ) < max_tries ∨ max_tries = -1 then
      let s1 := { reset s with tries := s.tries + 1 }
      let s2 := generateWorld s1 required_floor_space
      if s2.floor_space < required_floor_space then
        tryGenLoop fuel max_tries required_floor_space s2
      else
        match pathable s2.world s2.floor_space with
        | Except.error msg => TGResult.raised msg
        | Except.ok can_path =>
          if can_path = true ∧ required_floor_space ≤ s2.floor_space then
            TGResult.accepted s2
          else
            tryGenLoop fuel max_tries required_floor_space s2
    else TGResult.gaveUp s

/-! ## Marching-squares lemmas -/

theorem marchingSquares_width (wd : World) :
    (marchingSquares wd).width = wd.width := rfl

theorem marchingSquares_height (wd : World) :
    (marchingSquares wd).height = wd.height := rfl

theorem marchingSquares_tiles_of_inGrid (wd : World) (p : Pos)
    (h : inGrid wd p.1 p.2) :
    (marchingSquares wd).tiles p = { wd.tiles p with value := msValue wd p.1 p.2 } := by
  simp [marchingSquares, h]

theorem marchingSquares_tiles_of_not_inGrid (wd : World) (p : Pos)
    (h : ¬ inGrid wd p.1 p.2) :
    (marchingSquares wd).tiles p = wd.tiles p := by
  simp [marchingSquares, h]

theorem marchingSquares_get_value (wd : World) (x y : ℤ) (h : inGrid wd x y) :
    ((marchingSquares wd).get x y).value = msValue wd x y := by
  have hg : (marchingSquares wd).get x y = (marchingSquares wd).tiles (x, y) :=
    World.get_eq_tiles (marchingSquares wd) x y h
  rw [hg, marchingSquares_tiles_of_inGrid wd (x, y) h]

/-- Flags are untouched by `marching_squares` (it writes `value` only). -/
theorem marchingSquares_flags (wd : World) (p : Pos) :
    ((marchingSquares wd).tiles p).is_walkable = (wd.tiles p).is_walkable ∧
    ((marchingSquares wd).tiles p).is_dividing_wall = (wd.tiles p).is_dividing_wall := by
  by_cases h : inGrid wd p.1 p.2
  · rw [marchingSquares_tiles_of_inGrid wd p h]; exact ⟨rfl, rfl⟩
  · rw [marchingSquares_tiles_of_not_inGrid wd p h]; exact ⟨rfl, rfl⟩

/-- An interior corner is open as soon as one of its adjoining tiles is. -/
theorem cornerClosed_false_of_open (wd : World) (cx cy : ℤ)
    (h1 : 1 ≤ cx) (h2 : cx < wd.width) (h3 : 1 ≤ cy) (h4 : cy < wd.height)
    (d : ℤ × ℤ) (hd : d ∈ cornerOffsets)
    (hopen : tileOpen (wd.get (cx + d.1) (cy + d.2)) = true) :
    cornerClosed wd cx cy = false := by
  unfold cornerClosed
  rw [if_pos ⟨h1, h2, h3, h4⟩]
  simp only [Bool.not_eq_false']
  exact List.any_eq_true.mpr ⟨d, hd, hopen⟩

/-- The corner grid depends only on walkable/dividing-wall occupancy. -/
theorem cornerClosed_congr (wd wd2 : World)
    (hw : wd.width = wd2.width) (hh : wd.height = wd2.height)
    (hflags : ∀ p : Pos, inGrid wd p.1 p.2 →
      (wd.tiles p).is_walkable = (wd2.tiles p).is_walkable ∧
      (wd.tiles p).is_dividing_wall = (wd2.tiles p).is_dividing_wall)
    (cx cy : ℤ) : cornerClosed wd cx cy = cornerClosed wd2 cx cy := by
  have hget : ∀ a b : ℤ, 0 ≤ a → a < wd.width → 0 ≤ b → b < wd.height →
      tileOpen (wd.get a b) = tileOpen (wd2.get a b) := by
    intro a b g1 g2 g3 g4
    rw [World.get_eq_tiles wd a b ⟨g1, g2, g3, g4⟩,
        World.get_eq_tiles wd2 a b ⟨g1, hw ▸ g2, g3, hh ▸ g4⟩]
    have hf := hflags (a, b) ⟨g1, g2, g3, g4⟩
    unfold tileOpen
    rw [hf.1, hf.2]
  unfold cornerClosed
  rw [← hw, ← hh]
  by_cases hcond : 1 ≤ cx ∧ cx < (wd.width : ℤ) ∧ 1 ≤ cy ∧ cy < (wd.height : ℤ)
  · rw [if_pos hcond, if_pos hcond]
    obtain ⟨c1, c2, c3, c4⟩ := hcond
    simp only [cornerOffsets, List.any_cons, List.any_nil]
    rw [hget (cx + -1) (cy + -1) (by omega) (by omega) (by omega) (by omega),
        hget (cx + -1) (cy + 0) (by omega) (by omega) (by omega) (by omega),
        hget (cx + 0) (cy + -1) (by omega) (by omega) (by omega) (by omega),
        hget (cx + 0) (cy + 0) (by omega) (by omega) (by omega) (by omega)]
  · rw [if_neg hcond, if_neg hcond]

theorem msValue_congr (wd wd2 : World)
    (hw : wd.width = wd2.width) (hh : wd.height = wd2.height)
    (hflags : ∀ p : Pos, inGrid wd p.1 p.2 →
      (wd.tiles p).is_walkable = (wd2.tiles p).is_walkable ∧
      (wd.tiles p).is_dividing_wall = (wd2.tiles p).is_dividing_wall)
    (x y : ℤ) : msValue wd x y = msValue wd2 x y := by
  rw [msValue_eq, msValue_eq,
    cornerClosed_congr wd wd2 hw hh hflags x y,
    cornerClosed_congr wd wd2 hw hh hflags (x + 1) y,
    cornerClosed_congr wd wd2 hw hh hflags (x + 1) (y + 1),
    cornerClosed_congr wd wd2 hw hh hflags x (y + 1)]

theorem World.eq_of_parts (w1 w2 : World) (h1 : w1.width = w2.width)
    (h2 : w1.height = w2.height) (h3 : w1.tiles = w2.tiles) : w1 = w2 := by
  cases w1; cases w2; simp_all

/-- Re-running `marching_squares` on an unchanged grid changes nothing. -/
theorem marchingSquares_idem (wd : World) :
    marchingSquares (marchingSquares wd) = marchingSquares wd := by
  refine World.eq_of_parts _ _ rfl rfl ?_
  funext p
  have hflags : ∀ q : Pos, inGrid (marchingSquares wd) q.1 q.2 →
      ((marchingSquares wd).tiles q).is_walkable = (wd.tiles q).is_walkable ∧
      ((marchingSquares wd).tiles q).is_dividing_wall = (wd.tiles q).is_dividing_wall :=
    fun q _ => marchingSquares_flags wd q
  have hgrid : inGrid (marchingSquares wd) p.1 p.2 ↔ inGrid wd p.1 p.2 := Iff.rfl
  by_cases h : inGrid wd p.1 p.2
  · rw [marchingSquares_tiles_of_inGrid (marchingSquares wd) p (hgrid.mpr h),
        marchingSquares_tiles_of_inGrid wd p h,
        msValue_congr (marchingSquares wd) wd rfl rfl hflags p.1 p.2]
  · rw [marchingSquares_tiles_of_not_inGrid (marchingSquares wd) p (fun hc => h (hgrid.mp hc)),
        marchingSquares_tiles_of_not_inGrid wd p h]

/-- The corner rule as the specification words it (for claim C8): a corner
is closed exactly when none of the grid tiles adjoining it is open —
with no special casing of the corner-grid boundary. -/
def specCornerClosed (wd : World) (cx cy : ℤ) : Bool :=
  ! cornerOffsets.any fun d =>
      decide (inGrid wd (cx + d.1) (cy + d.2)) &&
      tileOpen (wd.get (cx + d.1) (cy + d.2))

/-- The tile value as the specification words it (for claim C8): the 4-bit
composition, top-left first, of `specCornerClosed` over the four corners. -/
def specMsValue (wd : World) (x y : ℤ) : ℕ :=
  8 * boolBit (specCornerClosed wd x y) +
  4 * boolBit (specCornerClosed wd (x + 1) y) +
  2 * boolBit (specCornerClosed wd (x + 1) (y + 1)) +
  boolBit (specCornerClosed wd x (y + 1))

/-- A 2×2 world with a single walkable tile at the corner `(0, 0)`. -/
def msCexWorld : World :=
  { width := 2, height := 2, tiles := fun p =>
      if p = ((0 : ℤ), (0 : ℤ)) then { Tile.init with is_walkable := true }
      else Tile.init }

/-! ## Claim C10 -/

/-- C10: after `marching_squares` runs, every tile lying strictly inside
the 1-tile world border whose `is_walkable` or `is_dividing_wall` flag is
true has `value` exactly 0: each of its four corners adjoins that open
tile, so all four corners are open.  (Hence the classification code alone
cannot tell floor from an interior dividing wall — both get 0 — and
consumers must consult the boolean flags.) -/
theorem C10_interior_open_tile_value_zero (wd : World) (x y : ℤ)
    (hx1 : 1 ≤ x) (hx2 : x < (wd.width : ℤ) - 1)
    (hy1 : 1 ≤ y) (hy2 : y < (wd.height : ℤ) - 1)
    (hopen : tileOpen (wd.get x y) = true) :
    ((marchingSquares wd).get x y).value = 0 := by
  have hg : inGrid wd x y := ⟨by omega, by omega, by omega, by omega⟩
  rw [marchingSquares_get_value wd x y hg, msValue_eq]
  have c0 : cornerClosed wd x y = false := by
    apply cornerClosed_false_of_open wd x y (by omega) (by omega) (by omega)
      (by omega) (0, 0) (by decide)
    simpa using hopen
  have c1 : cornerClosed wd (x + 1) y = false := by
    apply cornerClosed_false_of_open wd (x + 1) y (by omega) (by omega) (by omega)
      (by omega) (-1, 0) (by decide)
    simpa using hopen
  have c2 : cornerClosed wd (x + 1) (y + 1) = false := by
    apply cornerClosed_false_of_open wd (x + 1) (y + 1) (by omega) (by omega)
      (by omega) (by omega) (-1, -1) (by decide)
    simpa using hopen
  have c3 : cornerClosed wd x (y + 1) = false := by
    apply cornerClosed_false_of_open wd x (y + 1) (by omega) (by omega) (by omega)
      (by omega) (0, -1) (by decide)
    simpa using hopen
  rw [c0, c1, c2, c3]
  simp [boolBit]

/-- A 4×4 world with an interior walkable tile at (1,1) and an interior
dividing-wall tile at (2,1). -/
def c10World : World :=
  { width := 4, height := 4, tiles := fun p =>
      if p = ((1 : ℤ), (1 : ℤ)) then { Tile.init with is_walkable := true }
      else if p = ((2 : ℤ), (1 : ℤ)) then { Tile.init with is_dividing_wall := true }
      else Tile.init }

/-- Witness for C10: in `c10World` both the interior floor tile (1,1) and
the interior dividing-wall tile (2,1) classify to 0. -/
theorem C10_interior_open_tile_value_zero_witness :
    (tileOpen (c10World.get 1 1) = true ∧ tileOpen (c10World.get 2 1) = true) ∧
    ((marchingSquares c10World).get 1 1).value = 0 ∧
    ((marchingSquares c10World).get 2 1).value = 0 :=
  ⟨⟨by decide, by decide⟩,
   C10_interior_open_tile_value_zero c10World 1 1 (by decide) (by decide)
     (by decide) (by decide) (by decide),
   C10_interior_open_tile_value_zero c10World 2 1 (by decide) (by decide)
     (by decide) (by decide) (by decide)⟩

/-! ## Claim C8 -/

/-- C8 as stated is false: the tile value is not determined by the
walkable/dividing-wall occupancy of the tiles adjoining its corners.  In a
2×2 world whose tile (0, 0) is walkable, every corner of tile (0, 0)
adjoins that open tile, so the claimed rule (`specMsValue`) yields 0; but
the code leaves all corners on the corner-grid boundary unconditionally
closed — the corner loop runs only over `1 ≤ cx < width`,
`1 ≤ cy < height` — so `marching_squares` assigns value 13. -/
theorem C8_counterexample :
    ((marchingSquares msCexWorld).get 0 0).value ≠ specMsValue msCexWorld 0 0 ∧
    ((marchingSquares msCexWorld).get 0 0).value = 13 ∧
    specMsValue msCexWorld 0 0 = 0 := by
  decide

/-- C8 (amended): after `marching_squares` runs, each in-grid tile's value
is the 4-bit code composed from its four corners in the fixed order
top-left, top-right, bottom-right, bottom-left (top-left most significant),
where a corner strictly inside the corner grid is closed iff no tile
adjoining it is open (walkable or dividing wall) and every corner on the
corner-grid boundary is unconditionally closed; the value depends only on
the walkable/dividing-wall occupancy of the grid; and re-running
`marching_squares` on an unchanged grid yields byte-for-byte the same
value for every tile (idempotence). -/
theorem C8_classification_amended :
    (∀ (wd : World) (x y : ℤ), inGrid wd x y →
      ((marchingSquares wd).get x y).value =
        8 * boolBit (cornerClosed wd x y) +
        4 * boolBit (cornerClosed wd (x + 1) y) +
        2 * boolBit (cornerClosed wd (x + 1) (y + 1)) +
        boolBit (cornerClosed wd x (y + 1))) ∧
    (∀ wd wd2 : World, wd.width = wd2.width → wd.height = wd2.height →
      (∀ p : Pos, inGrid wd p.1 p.2 →
        (wd.tiles p).is_walkable = (wd2.tiles p).is_walkable ∧
        (wd.tiles p).is_dividing_wall = (wd2.tiles p).is_dividing_wall) →
      ∀ x y : ℤ, msValue wd x y = msValue wd2 x y) ∧
    (∀ wd : World, marchingSquares (marchingSquares wd) = marchingSquares wd) := by
  refine ⟨?_, ?_, marchingSquares_idem⟩
  · intro wd x y h
    rw [marchingSquares_get_value wd x y h, msValue_eq]
  · intro wd wd2 hw hh hflags x y
    exact msValue_congr wd wd2 hw hh hflags x y

/-- Witness for the amended C8, on the counterexample world. -/
theorem C8_classification_amended_witness :
    ((marchingSquares msCexWorld).get 0 0).value =
      8 * boolBit (cornerClosed msCexWorld 0 0) +
      4 * boolBit (cornerClosed msCexWorld 1 0) +
      2 * boolBit (cornerClosed msCexWorld 1 1) +
      boolBit (cornerClosed msCexWorld 0 1) ∧
    marchingSquares (marchingSquares msCexWorld) = marchingSquares msCexWorld :=
  ⟨by
      have h := C8_classification_amended.1 msCexWorld 0 0 (by decide)
      simpa using h,
   C8_classification_amended.2.2 msCexWorld⟩

/-! ## Claim C6 -/

/-- C6 is contradicted by the code (which also contradicts its own comment
in `add_room_candidates`): the axis appended with each candidate equals the
axis along which the candidate was flanked off its parent, not its
complement.  Concretely: budding the starting room (15, 20, 10, 10) in a
40×40 world with `axis = Y` passed in and a stream whose draw keeps the
axis (draw 0: 0 mod 100 < 75) enqueues the two candidates (19, 18, 2, 2)
and (19, 30, 2, 2) — flanking the parent along Y — each carrying `Axis.Y`
itself, not the complement `Axis.X`. -/
theorem C6_bud_axis_equals_flank_axis :
    (addRoomCandidates (initState 40 40 fun _ => 0)
        ⟨15, 20, 10, 10, 40, 40⟩ Axis.Y false).rooms_to_bud =
      [(⟨19, 18, 2, 2, 40, 40⟩, Axis.Y), (⟨19, 30, 2, 2, 40, 40⟩, Axis.Y)] ∧
    Axis.other Axis.Y = Axis.X := by
  constructor
  · rfl
  · rfl

/-! ## Claim C9 -/

/-- C9: if a carve's very first forward step from the corner hits a
non-walkable tile, `add_wall` finishes immediately: the floor-space counter
is unchanged and the returned span list contains no wall tile at all (it is
the single empty span `[[]]`, which the door pass then discards), so
`add_doors` run on that output punches no doorway and leaves the world,
the floor-space counter and the random stream untouched. -/
theorem C9_blocked_first_step (wd : World) (fs : ℤ) (p : Pos) (d : ℤ × ℤ)
    (fuel : ℕ) (hfuel : 0 < fuel)
    (hblocked : (wd.get (p.1 + d.1) (p.2 + d.2)).is_walkable = false) :
    (addWall fuel wd fs p d).1 = true ∧
    (addWall fuel wd fs p d).2.2.1 = fs ∧
    (addWall fuel wd fs p d).2.2.2 = [[]] ∧
    (∀ rng : RNG,
      addDoors rng (addWall fuel wd fs p d).2.1 fs (addWall fuel wd fs p d).2.2.2 =
        (rng, (addWall fuel wd fs p d).2.1, fs)) := by
  obtain ⟨n, rfl⟩ : ∃ n, fuel = n + 1 := ⟨fuel - 1, by omega⟩
  have hstep : addWallLoop wd d (n + 1) wd fs [] [] (p.1 + d.1) (p.2 + d.2) =
      (true,
       (if (wd.get (p.1 + d.1) (p.2 + d.2)).is_dividing_wall = true then
          wd.put (p.1 + d.1) (p.2 + d.2)
            { wd.get (p.1 + d.1) (p.2 + d.2) with is_span_connection := true }
        else wd), fs, [], []) := by
    rw [addWallLoop]
    simp [hblocked]
  refine ⟨?_, ?_, ?_, ?_⟩
  · simp [addWall, hstep]
  · simp [addWall, hstep]
  · simp [addWall, hstep]
  · intro rng
    simp [addWall, hstep, addDoors, checkedSpans, splitSpanAux, doorLoop]

/-- Witness for C9 on a concrete world: all tiles of `freshWorld 4 4` are
non-walkable, so a carve from (1,1) heading down is blocked at once. -/
theorem C9_blocked_first_step_witness :
    (freshWorld 4 4 |>.get (1 + 0) (1 + 1)).is_walkable = false ∧
    ((addWall 3 (freshWorld 4 4) 7 (1, 1) (0, 1)).1 = true ∧
     (addWall 3 (freshWorld 4 4) 7 (1, 1) (0, 1)).2.2.1 = 7 ∧
     (addWall 3 (freshWorld 4 4) 7 (1, 1) (0, 1)).2.2.2 = [[]] ∧
     (∀ rng : RNG,
       addDoors rng (addWall 3 (freshWorld 4 4) 7 (1, 1) (0, 1)).2.1 7
           (addWall 3 (freshWorld 4 4) 7 (1, 1) (0, 1)).2.2.2 =
         (rng, (addWall 3 (freshWorld 4 4) 7 (1, 1) (0, 1)).2.1, 7))) :=
  ⟨by decide,
   C9_blocked_first_step (freshWorld 4 4) 7 (1, 1) (0, 1) 3 (by decide) (by decide)⟩

/-! ## Mutual exclusion: claim C2 -/

/-- A tile is not both walkable and a dividing wall. -/
def tileExcl (t : Tile) : Bool := ! (t.is_walkable && t.is_dividing_wall)

/-- Mutual exclusion over the whole grid. -/
def MutExclW (wd : World) : Prop :=
  ∀ p ∈ gridPositions wd, tileExcl (wd.tiles p) = true

/-- No dividing wall anywhere in the grid (the state room carving runs in:
`generate_world` carves rooms right after `reset`, before any wall is
added). -/
def NoDivW (wd : World) : Prop :=
  ∀ p ∈ gridPositions wd, (wd.tiles p).is_dividing_wall = false

instance (wd : World) : Decidable (MutExclW wd) := by
  unfold MutExclW; infer_instance

instance (wd : World) : Decidable (NoDivW wd) := by
  unfold NoDivW; infer_instance

theorem gridPositions_put (wd : World) (x y : ℤ) (t : Tile) :
    gridPositions (wd.put x y t) = gridPositions wd := rfl

theorem MutExclW_of_NoDivW (wd : World) (h : NoDivW wd) : MutExclW wd := by
  intro p hp
  simp [tileExcl, h p hp]

theorem MutExclW_put (wd : World) (x y : ℤ) (t : Tile)
    (h : MutExclW wd) (ht : tileExcl t = true) : MutExclW (wd.put x y t) := by
  intro p hp
  by_cases hk : p = (pyIdx wd.width x, pyIdx wd.height y)
  · subst hk
    simpa [World.put] using ht
  · rw [World.put_tiles_ne _ _ _ _ _ hk]
    exact h p hp

theorem NoDivW_put_keep (wd : World) (x y : ℤ) (t : Tile)
    (h : NoDivW wd)
    (ht : t.is_dividing_wall = (wd.get x y).is_dividing_wall) :
    NoDivW (wd.put x y t) := by
  intro p hp
  by_cases hk : p = (pyIdx wd.width x, pyIdx wd.height y)
  · subst hk
    have : (wd.put x y t).tiles (pyIdx wd.width x, pyIdx wd.height y) = t := by
      simp [World.put]
    rw [this, ht]
    exact h _ hp
  · rw [World.put_tiles_ne _ _ _ _ _ hk]
    exact h p hp

theorem NoDivW_carveRow (xs : List ℤ) (y : ℤ) :
    ∀ wd : World, NoDivW wd →
      NoDivW (xs.foldl
        (fun w2 x => w2.put x y { w2.get x y with is_walkable := true }) wd) := by
  induction xs with
  | nil => intro wd h; exact h
  | cons a rest ih =>
    intro wd h
    exact ih _ (NoDivW_put_keep wd a y _ h rfl)

theorem NoDivW_carveRoom (wd : World) (r : Room) (h : NoDivW wd) :
    NoDivW (carveRoom wd r) := by
  unfold carveRoom
  generalize rangeZ r.y (r.y + r.height) = ys
  induction ys generalizing wd with
  | nil => exact h
  | cons a rest ih => exact ih _ (NoDivW_carveRow _ a wd h)

theorem NoDivW_carveRooms (wd : World) (rooms : List Room) (h : NoDivW wd) :
    NoDivW (carveRooms wd rooms) := by
  unfold carveRooms
  induction rooms generalizing wd with
  | nil => exact h
  | cons a rest ih => exact ih _ (NoDivW_carveRoom wd a h)

theorem MutExclW_addWallLoop (wd0 : World) (d : ℤ × ℤ) (fuel : ℕ) :
    ∀ (wd : World) (fs : ℤ) (done : List (List Pos)) (cur : List Pos) (x y : ℤ),
      MutExclW wd → MutExclW (addWallLoop wd0 d fuel wd fs done cur x y).2.1 := by
  induction fuel with
  | zero => intro wd fs done cur x y h; exact h
  | succ n ih =>
    intro wd fs done cur x y h
    rw [addWallLoop]
    by_cases hw : (wd.get x y).is_walkable = true
    · rw [if_pos hw]
      by_cases hs : (wd.get (x + d.2) (y + d.1)).is_walkable = true ∧
          (wd.get (x - d.2) (y - d.1)).is_walkable = true
      · rw [if_pos hs]
        apply ih
        apply MutExclW_put _ _ _ _ h
        simp [tileExcl]
      · rw [if_neg hs]
        by_cases hc : cur = []
        · rw [if_pos hc]; exact ih _ _ _ _ _ _ h
        · rw [if_neg hc]; exact ih _ _ _ _ _ _ h
    · rw [if_neg hw]
      by_cases hd : (wd.get x y).is_dividing_wall = true
      · rw [if_pos hd]
        apply MutExclW_put _ _ _ _ h
        simp only [tileExcl]
        have : (wd.get x y).is_walkable = false := by
          cases hwv : (wd.get x y).is_walkable
          · rfl
          · exact absurd hwv hw
        simp [this]
      · rw [if_neg hd]
        exact h

theorem MutExclW_doorLoop (rng : RNG) (wd : World) (fs : ℤ)
    (spans : List (List Pos)) (h : MutExclW wd) :
    MutExclW (doorLoop rng wd fs spans).2.1 := by
  induction spans generalizing rng wd fs with
  | nil => exact h
  | cons s rest ih =>
    rw [doorLoop]
    by_cases hs : s = []
    · rw [if_pos hs]; exact ih _ _ _ h
    · rw [if_neg hs]
      apply ih
      apply MutExclW_put _ _ _ _ h
      simp [tileExcl]

/-- C2: `is_walkable` and `is_dividing_wall` are never both true, at every
point of a generation attempt: the reset grid satisfies the exclusion (and
has no dividing walls at all); room carving, run on a grid with no dividing
walls, keeps both properties; every step of the `add_wall` walk preserves
the exclusion (a carved tile becomes non-walkable and dividing in the same
assignment, a t-boned wall only gets its span-connection mark); and every
doorway punched by `add_doors` makes a tile walkable and non-dividing in
the same assignment. -/
theorem C2_walkable_dividing_exclusive :
    (∀ w h : ℕ, MutExclW (freshWorld w h) ∧ NoDivW (freshWorld w h)) ∧
    (∀ (wd : World) (rooms : List Room), NoDivW wd →
      NoDivW (carveRooms wd rooms) ∧ MutExclW (carveRooms wd rooms)) ∧
    (∀ (fuel : ℕ) (wd : World) (fs : ℤ) (p : Pos) (d : ℤ × ℤ), MutExclW wd →
      MutExclW (addWall fuel wd fs p d).2.1) ∧
    (∀ (rng : RNG) (wd : World) (fs : ℤ) (spans : List (List Pos)), MutExclW wd →
      MutExclW (addDoors rng wd fs spans).2.1) := by
  refine ⟨?_, ?_, ?_, ?_⟩
  · intro w h
    exact ⟨fun p _ => rfl, fun p _ => rfl⟩
  · intro wd rooms h
    exact ⟨NoDivW_carveRooms wd rooms h,
      MutExclW_of_NoDivW _ (NoDivW_carveRooms wd rooms h)⟩
  · intro fuel wd fs p d h
    exact MutExclW_addWallLoop wd d fuel wd fs [] [] (p.1 + d.1) (p.2 + d.2) h
  · intro rng wd fs spans h
    exact MutExclW_doorLoop rng wd fs (checkedSpans wd spans) h

/-- Witness for C2 at concrete states. -/
theorem C2_walkable_dividing_exclusive_witness :
    MutExclW (freshWorld 3 3) ∧
    MutExclW (carveRooms (freshWorld 4 4) [⟨1, 1, 2, 2, 4, 4⟩]) ∧
    MutExclW (addWall 3 c10World 0 (1, 1) (0, 1)).2.1 ∧
    MutExclW (addDoors { stream := fun _ => 0, idx := 0 } c10World 0 [[(2, 1)]]).2.1 :=
  ⟨(C2_walkable_dividing_exclusive.1 3 3).1,
   (C2_walkable_dividing_exclusive.2.1 (freshWorld 4 4) [⟨1, 1, 2, 2, 4, 4⟩]
     (by decide)).2,
   C2_walkable_dividing_exclusive.2.2.1 3 c10World 0 (1, 1) (0, 1) (by decide),
   C2_walkable_dividing_exclusive.2.2.2 { stream := fun _ => 0, idx := 0 }
     c10World 0 [[(2, 1)]] (by decide)⟩

/-! ## Claim C3: the budding invariants -/

theorem randomChoice_mem {α : Type} [Inhabited α] (r : RNG) (l : List α)
    (h : l ≠ []) : (randomChoice r l).1 ∈ l := by
  unfold randomChoice RNG.draw
  simp only
  have hl : 0 < l.length := List.length_pos.mpr h
  have hlt : (r.stream r.idx) % l.length < l.length := Nat.mod_lt _ hl
  rw [List.getD_eq_getElem l default hlt]
  exact List.getElem_mem hlt

/-- The candidate-room facts that survive along the bud queue: positive
dimensions drawn from (2, 4, 6) and the enclosing world dimensions. -/
def candOk (w h : ℕ) (r : Room) : Prop :=
  0 < r.width ∧ 0 < r.height ∧
  r.world_width = (w : ℤ) ∧ r.world_height = (h : ℤ)

theorem getNewRoomCoords_candOk (r : RNG) (w h : ℕ) (room : Room) (axis : Axis) :
    candOk w h (getNewRoomCoords r w h room axis).1.1 ∧
    candOk w h (getNewRoomCoords r w h room axis).1.2 := by
  have h1 : (randomChoice r [(2 : ℤ), 4, 6]).1 ∈ [(2 : ℤ), 4, 6] :=
    randomChoice_mem r _ (by decide)
  have h2 : (randomChoice (randomChoice r [(2 : ℤ), 4, 6]).2 [(2 : ℤ), 4, 6]).1 ∈
      [(2 : ℤ), 4, 6] :=
    randomChoice_mem _ _ (by decide)
  simp only [List.mem_cons, List.not_mem_nil, or_false] at h1 h2
  cases axis <;>
    simp only [getNewRoomCoords] <;>
      exact ⟨⟨by dsimp only; omega, by dsimp only; omega, rfl, rfl⟩,
             ⟨by dsimp only; omega, by dsimp only; omega, rfl, rfl⟩⟩

/-- `add_room_candidates` leaves the grid dimensions, the world, the
committed rooms, the tries and the floor space alone; it only advances the
stream and appends candidate pairs, every one of which satisfies `candOk`. -/
theorem addRoomCandidates_parts (s : GenState) (room : Room) (axis : Axis)
    (both : Bool) :
    (addRoomCandidates s room axis both).width = s.width ∧
    (addRoomCandidates s room axis both).height = s.height ∧
    (addRoomCandidates s room axis both).rooms = s.rooms ∧
    (addRoomCandidates s room axis both).world = s.world ∧
    (addRoomCandidates s room axis both).floor_space = s.floor_space ∧
    (addRoomCandidates s room axis both).tries = s.tries ∧
    ∀ ra ∈ (addRoomCandidates s room axis both).rooms_to_bud,
      ra ∈ s.rooms_to_bud ∨ candOk s.width s.height ra.1 := by
  unfold addRoomCandidates
  dsimp only
  split_ifs with h1 h2 h2
  · refine ⟨rfl, rfl, rfl, rfl, rfl, rfl, ?_⟩
    intro ra hra
    simp only [List.mem_append, List.mem_cons, List.not_mem_nil, or_false] at hra
    rcases hra with (hq | rfl | rfl) | rfl | rfl
    · exact Or.inl hq
    · exact Or.inr (getNewRoomCoords_candOk _ _ _ _ _).1
    · exact Or.inr (getNewRoomCoords_candOk _ _ _ _ _).2
    · exact Or.inr (getNewRoomCoords_candOk _ _ _ _ _).1
    · exact Or.inr (getNewRoomCoords_candOk _ _ _ _ _).2
  · refine ⟨rfl, rfl, rfl, rfl, rfl, rfl, ?_⟩
    intro ra hra
    simp only [List.mem_append, List.mem_cons, List.not_mem_nil, or_false] at hra
    rcases hra with hq | rfl | rfl
    · exact Or.inl hq
    · exact Or.inr (getNewRoomCoords_candOk _ _ _ _ _).1
    · exact Or.inr (getNewRoomCoords_candOk _ _ _ _ _).2
  · refine ⟨rfl, rfl, rfl, rfl, rfl, rfl, ?_⟩
    intro ra hra
    simp only [List.mem_append, List.mem_cons, List.not_mem_nil, or_false] at hra
    rcases hra with hq | rfl | rfl
    · exact Or.inl hq
    · exact Or.inr (getNewRoomCoords_candOk _ _ _ _ _).1
    · exact Or.inr (getNewRoomCoords_candOk _ _ _ _ _).2
  · exact ⟨rfl, rfl, rfl, rfl, rfl, rfl, fun ra hra => Or.inl hra⟩

/-- Invariant of the committed room list: every committed room passed the
buffered bounds check, has positive drawn dimensions and carries the real
world dimensions; and no committed room overlaps another. -/
def RoomsInv (w h : ℕ) (rooms : List Room) : Prop :=
  (∀ r ∈ rooms, r.within_bounds = true ∧ candOk w h r) ∧
  rooms.Pairwise fun a b => a.overlaps b = false

/-- Invariant of the bud queue: every queued candidate satisfies `candOk`. -/
def QueueInv (w h : ℕ) (q : List (Room × Axis)) : Prop :=
  ∀ ra ∈ q, candOk w h ra.1

/-- The state invariant maintained through `add_rooms`. -/
def StInv (s : GenState) : Prop :=
  RoomsInv s.width s.height s.rooms ∧ QueueInv s.width s.height s.rooms_to_bud

theorem tryBudding_inv (s : GenState) (room : Room) (axis : Axis)
    (hs : StInv s) (hroom : candOk s.width s.height room) :
    StInv (tryBudding s room axis) ∧
    (tryBudding s room axis).width = s.width ∧
    (tryBudding s room axis).height = s.height := by
  unfold tryBudding
  by_cases hwb : ¬ room.within_bounds = true
  · rw [if_pos hwb]
    exact ⟨hs, rfl, rfl⟩
  · rw [if_neg hwb]
    by_cases hov : s.rooms.any (fun existing => room.overlaps existing) = true
    · rw [if_pos hov]
      exact ⟨hs, rfl, rfl⟩
    · rw [if_neg hov]
      have hwb2 : room.within_bounds = true := by
        cases hv : room.within_bounds
        · exact absurd (by rw [hv]; simp) hwb
        · rfl
      have hnov : ∀ a ∈ s.rooms, room.overlaps a = false := by
        intro a ha
        by_contra hc
        exact hov (List.any_eq_true.mpr ⟨a, ha, by
          revert hc; cases room.overlaps a <;> simp⟩)
      set s2 : GenState := { s with rooms := s.rooms ++ [room] } with hs2
      obtain ⟨pw, ph, pr, _, _, _, pq⟩ := addRoomCandidates_parts s2 room axis false
      refine ⟨⟨?_, ?_⟩, ?_, ?_⟩
      · rw [pw, ph, pr]
        show RoomsInv s.width s.height (s.rooms ++ [room])
        constructor
        · intro r hr
          rcases List.mem_append.mp hr with h | h
          · exact hs.1.1 r h
          · rcases List.mem_singleton.mp h with rfl
            exact ⟨hwb2, hroom⟩
        · rw [List.pairwise_append]
          refine ⟨hs.1.2, List.pairwise_singleton _ _, ?_⟩
          intro a ha b hb
          rcases List.mem_singleton.mp hb with rfl
          rw [Room.overlaps_comm]
          exact hnov a ha
      · rw [pw, ph]
        intro ra hra
        rcases pq ra hra with h | h
        · exact hs.2 ra h
        · exact h
      · rw [pw]
      · rw [ph]

theorem addRoomsLoop_inv (fuel : ℕ) :
    ∀ s : GenState, StInv s →
      StInv (addRoomsLoop fuel s) ∧
      (addRoomsLoop fuel s).width = s.width ∧
      (addRoomsLoop fuel s).height = s.height := by
  induction fuel with
  | zero => intro s hs; exact ⟨hs, rfl, rfl⟩
  | succ n ih =>
    intro s hs
    rw [addRoomsLoop]
    cases hq : s.rooms_to_bud with
    | nil => exact ⟨hs, rfl, rfl⟩
    | cons ra rest =>
      set s2 : GenState := { s with rooms_to_bud := rest } with hs2
      have hs2inv : StInv s2 := by
        refine ⟨hs.1, ?_⟩
        intro x hx
        exact hs.2 x (by rw [hq]; exact List.mem_cons_of_mem _ hx)
      have hcand : candOk s2.width s2.height ra.1 :=
        hs.2 ra (by rw [hq]; exact List.mem_cons_self _ _)
      have hb := tryBudding_inv s2 ra.1 ra.2 hs2inv hcand
      have hr := ih (tryBudding s2 ra.1 ra.2) hb.1
      exact ⟨hr.1, by rw [hr.2.1, hb.2.1], by rw [hr.2.2, hb.2.2]⟩

theorem addRooms_inv (s : GenState) (hs : StInv s) :
    StInv (addRooms s) ∧
    (addRooms s).width = s.width ∧ (addRooms s).height = s.height := by
  unfold addRooms
  dsimp only
  refine addRoomsLoop_inv _ _ ⟨hs.1, ?_⟩
  intro ra hra
  rcases List.mem_append.mp hra with h | h
  · exact hs.2 ra h
  · unfold createStartingRooms at h
    simp only [List.mem_singleton] at h
    subst h
    exact ⟨by norm_num, by norm_num, rfl, rfl⟩

/-- C3: every room committed during budding satisfies the 1-tile-buffered
bounds (`0 < x` and `x + width < world_width - 1`, and likewise for `y`);
the overlap test returns false for every pair of distinct committed rooms;
and a candidate failing either check leaves the generator state completely
untouched — it is never committed and spawns no further candidates. -/
theorem C3_committed_room_invariants (w h : ℕ) (stream : ℕ → ℕ) :
    (∀ r ∈ (addRooms (initState w h stream)).rooms,
      0 < r.x ∧ r.x + r.width < r.world_width - 1 ∧
      0 < r.y ∧ r.y + r.height < r.world_height - 1) ∧
    (∀ a ∈ (addRooms (initState w h stream)).rooms,
      ∀ b ∈ (addRooms (initState w h stream)).rooms,
        a ≠ b → a.overlaps b = false) ∧
    (∀ (s : GenState) (room : Room) (axis : Axis),
      room.within_bounds = false ∨ (∃ er ∈ s.rooms, room.overlaps er = true) →
      tryBudding s room axis = s) := by
  have hinv : StInv (initState w h stream) := by
    refine ⟨⟨?_, ?_⟩, ?_⟩
    · intro r hr; exact absurd hr (List.not_mem_nil r)
    · exact List.Pairwise.nil
    · intro ra hra; exact absurd hra (List.not_mem_nil ra)
  have hres := (addRooms_inv _ hinv).1
  refine ⟨?_, ?_, ?_⟩
  · intro r hr
    have hb := (hres.1.1 r hr).1
    unfold Room.within_bounds at hb
    rw [decide_eq_true_iff] at hb
    omega
  · intro a ha b hb hne
    exact List.Pairwise.forall (fun x y hxy => by
        rw [Room.overlaps_comm]; exact hxy) hres.1.2 ha hb hne
  · intro s room axis hrej
    unfold tryBudding
    rcases hrej with hwb | ⟨er, her, hover⟩
    · rw [if_pos (show ¬ room.within_bounds = true by rw [hwb]; simp)]
    · by_cases hwb : ¬ room.within_bounds = true
      · rw [if_pos hwb]
      · rw [if_neg hwb, if_pos (List.any_eq_true.mpr ⟨er, her, hover⟩)]

/-! ## Claim C5: degenerate input never fails fast, it loops forever -/

/-- The grid footprint of a room. -/
def roomCells (r : Room) : Finset Pos :=
  Finset.Ico r.x (r.x + r.width) ×ˢ Finset.Ico r.y (r.y + r.height)

theorem roomCells_card (r : Room) (hw : 0 ≤ r.width) (hh : 0 ≤ r.height) :
    ((roomCells r).card : ℤ) = r.width * r.height := by
  unfold roomCells
  rw [Finset.card_product]
  push_cast
  rw [Int.card_Ico_of_le r.x (r.x + r.width) (by omega),
      Int.card_Ico_of_le r.y (r.y + r.height) (by omega)]
  ring

theorem roomCells_disjoint (a b : Room) (h : a.overlaps b = false) :
    Disjoint (roomCells a) (roomCells b) := by
  have hno : ¬ (a.x < b.x + b.width ∧ b.x < a.x + a.width ∧
      a.y < b.y + b.height ∧ b.y < a.y + a.height) := by
    intro hc
    rw [← Room.overlaps_iff] at hc
    rw [h] at hc
    exact absurd hc (by simp)
  rw [Finset.disjoint_left]
  intro p hp hq
  simp only [roomCells, Finset.mem_product, Finset.mem_Ico] at hp hq
  omega

theorem rooms_area_le_aux (rooms : List Room) :
    ∀ G : Finset Pos,
      (∀ r ∈ rooms, 0 < r.width ∧ 0 < r.height ∧ roomCells r ⊆ G) →
      rooms.Pairwise (fun a b => a.overlaps b = false) →
      (rooms.map fun r => r.width * r.height).sum ≤ (G.card : ℤ) := by
  induction rooms with
  | nil => intro G _ _; simp
  | cons r rest ih =>
    intro G hsub hpw
    obtain ⟨hw, hh, hsubr⟩ := hsub r (List.mem_cons_self r rest)
    have hrest : ∀ t ∈ rest, 0 < t.width ∧ 0 < t.height ∧
        roomCells t ⊆ G \ roomCells r := by
      intro t ht
      obtain ⟨h1, h2, h3⟩ := hsub t (List.mem_cons_of_mem _ ht)
      have hd : Disjoint (roomCells r) (roomCells t) :=
        roomCells_disjoint r t ((List.pairwise_cons.mp hpw).1 t ht)
      exact ⟨h1, h2, Finset.subset_sdiff.mpr ⟨h3, hd.symm⟩⟩
    have hih := ih (G \ roomCells r) hrest (List.pairwise_cons.mp hpw).2
    have hcard := roomCells_card r (le_of_lt hw) (le_of_lt hh)
    have hle : (roomCells r).card ≤ G.card := Finset.card_le_card hsubr
    have hsd : (G \ roomCells r).card = G.card - (roomCells r).card :=
      Finset.card_sdiff hsubr
    simp only [List.map_cons, List.sum_cons]
    rw [hsd] at hih
    omega

/-- The total area of the committed rooms never exceeds the grid capacity
`width · height`: committed rooms are pairwise disjoint in-bounds
footprints. -/
theorem rooms_area_le (w h : ℕ) (rooms : List Room)
    (hinv : RoomsInv w h rooms) :
    (rooms.map fun r => r.width * r.height).sum ≤ (w : ℤ) * h := by
  have hG : (((Finset.Ico (0 : ℤ) w ×ˢ Finset.Ico (0 : ℤ) h) : Finset Pos).card : ℤ) =
      (w : ℤ) * h := by
    rw [Finset.card_product]
    push_cast
    rw [Int.card_Ico_of_le 0 (w : ℤ) (Int.natCast_nonneg w),
        Int.card_Ico_of_le 0 (h : ℤ) (Int.natCast_nonneg h)]
    ring
  rw [← hG]
  apply rooms_area_le_aux rooms _ _ hinv.2
  intro r hr
  obtain ⟨hwb, hcand⟩ := hinv.1 r hr
  unfold Room.within_bounds at hwb
  rw [decide_eq_true_iff] at hwb
  obtain ⟨hwpos, hhpos, hww, hwh⟩ := hcand
  refine ⟨hwpos, hhpos, ?_⟩
  intro p hp
  simp only [roomCells, Finset.mem_product, Finset.mem_Ico] at hp
  simp only [Finset.mem_product, Finset.mem_Ico]
  rw [hww, hwh] at hwb
  omega

theorem tryBudding_keeps (s : GenState) (room : Room) (axis : Axis) :
    (tryBudding s room axis).floor_space = s.floor_space ∧
    (tryBudding s room axis).tries = s.tries := by
  unfold tryBudding
  by_cases hwb : ¬ room.within_bounds = true
  · rw [if_pos hwb]; exact ⟨rfl, rfl⟩
  · rw [if_neg hwb]
    by_cases hov : s.rooms.any (fun existing => room.overlaps existing) = true
    · rw [if_pos hov]; exact ⟨rfl, rfl⟩
    · rw [if_neg hov]
      obtain ⟨_, _, _, _, pfs, ptr, _⟩ :=
        addRoomCandidates_parts { s with rooms := s.rooms ++ [room] } room axis false
      exact ⟨pfs, ptr⟩

theorem addRoomsLoop_keeps (fuel : ℕ) :
    ∀ s : GenState, (addRoomsLoop fuel s).floor_space = s.floor_space ∧
      (addRoomsLoop fuel s).tries = s.tries := by
  induction fuel with
  | zero => intro s; exact ⟨rfl, rfl⟩
  | succ n ih =>
    intro s
    rw [addRoomsLoop]
    cases hq : s.rooms_to_bud with
    | nil => exact ⟨rfl, rfl⟩
    | cons ra rest =>
      have hk := tryBudding_keeps { s with rooms_to_bud := rest } ra.1 ra.2
      have hr := ih (tryBudding { s with rooms_to_bud := rest } ra.1 ra.2)
      exact ⟨by rw [hr.1, hk.1], by rw [hr.2, hk.2]⟩

theorem addRooms_keeps (s : GenState) :
    (addRooms s).floor_space = s.floor_space ∧ (addRooms s).tries = s.tries := by
  unfold addRooms
  dsimp only
  have := addRoomsLoop_keeps (2 + 5 * s.width * s.height)
    { s with
        rng := (createStartingRooms s).2,
        rooms_to_bud := s.rooms_to_bud ++ (createStartingRooms s).1 }
  exact this

/-- When the required floor space exceeds the grid capacity, every attempt
is rejected at the cheap floor-space check: `generate_world` returns right
after summing the room areas, with the counter still below the
requirement. -/
theorem generateWorld_reject (s : GenState) (req : ℤ)
    (hq : QueueInv s.width s.height s.rooms_to_bud)
    (hrooms : s.rooms = []) (hfs : s.floor_space = 0)
    (hcap : (s.width : ℤ) * s.height < req) :
    (generateWorld s req).floor_space < req ∧
    (generateWorld s req).width = s.width ∧
    (generateWorld s req).height = s.height ∧
    (generateWorld s req).tries = s.tries ∧
    QueueInv (generateWorld s req).width (generateWorld s req).height
      (generateWorld s req).rooms_to_bud := by
  have hinv : StInv s := by
    refine ⟨⟨?_, ?_⟩, hq⟩
    · intro r hr; rw [hrooms] at hr; exact absurd hr (List.not_mem_nil r)
    · rw [hrooms]; exact List.Pairwise.nil
  obtain ⟨hainv, haw, hah⟩ := addRooms_inv s hinv
  have hkeep := addRooms_keeps s
  have harea : ((addRooms s).rooms.map fun r => r.width * r.height).sum ≤
      (s.width : ℤ) * s.height := by
    have := rooms_area_le (addRooms s).width (addRooms s).height (addRooms s).rooms hainv.1
    rwa [haw, hah] at this
  have hlt : (addRooms s).floor_space +
      ((addRooms s).rooms.map fun r => r.width * r.height).sum < req := by
    rw [hkeep.1, hfs]
    omega
  unfold generateWorld
  rw [if_pos (by dsimp only; exact hlt)]
  refine ⟨hlt, haw, hah, hkeep.2, ?_⟩
  intro ra hra
  have hc := hainv.2 ra hra
  show candOk (addRooms s).width (addRooms s).height ra.1
  exact hc

theorem tryGenLoop_stuck (req : ℤ) (w h : ℕ) (hcap : (w : ℤ) * h < req) :
    ∀ (fuel : ℕ) (s : GenState), s.width = w → s.height = h →
      QueueInv s.width s.height s.rooms_to_bud →
      tryGenLoop fuel (-1) req s = TGResult.outOfFuel := by
  intro fuel
  induction fuel with
  | zero => intro s _ _ _; rfl
  | succ n ih =>
    intro s hw hh hq
    rw [tryGenLoop]
    rw [if_pos (Or.inr rfl)]
    set s1 : GenState := { reset s with tries := s.tries + 1 } with hs1
    have h1q : QueueInv s1.width s1.height s1.rooms_to_bud := hq
    have h1cap : (s1.width : ℤ) * s1.height < req := by
      show (s.width : ℤ) * s.height < req
      rw [hw, hh]; exact hcap
    have hrej := generateWorld_reject s1 req h1q rfl rfl h1cap
    rw [if_pos hrej.1]
    apply ih
    · rw [hrej.2.1]; show s.width = w; exact hw
    · rw [hrej.2.2.1]; show s.height = h; exact hh
    · exact hrej.2.2.2.2

/-- C5 is contradicted by the code: neither `Generator.__init__` nor
`try_generation` validates its input.  With the default `max_tries = -1`
and a required floor space exceeding the grid capacity `width · height`,
every attempt is rejected at the cheap floor-space check (the committed
rooms are disjoint in-bounds footprints, so their area sum is at most the
capacity) and the retry loop runs forever instead of reporting a caller
error: for every fuel bound the loop is still spinning. -/
theorem C5_degenerate_input_loops_forever (w h : ℕ) (req : ℤ) (stream : ℕ → ℕ)
    (hcap : (w : ℤ) * h < req) (fuel : ℕ) :
    tryGenLoop fuel (-1) req (initState w h stream) = TGResult.outOfFuel :=
  tryGenLoop_stuck req w h hcap fuel (initState w h stream) rfl rfl
    (fun ra hra => absurd hra (List.not_mem_nil ra))

/-- Witness for C5: requiring 100 floor tiles of a 4×4 grid (capacity 16)
never terminates, for any attempt budget. -/
theorem C5_degenerate_input_loops_forever_witness :
    ((4 : ℕ) : ℤ) * ((4 : ℕ) : ℤ) < 100 ∧
    tryGenLoop 3 (-1) 100 (initState 4 4 fun _ => 0) = TGResult.outOfFuel :=
  ⟨by norm_num,
   C5_degenerate_input_loops_forever 4 4 100 (fun _ => 0) (by norm_num) 3⟩

/-! ## Flood-fill correctness (claims C4 and C1) -/

theorem mem_gridList (w h : ℕ) (p : Pos) :
    p ∈ gridList w h ↔ 0 ≤ p.1 ∧ p.1 < w ∧ 0 ≤ p.2 ∧ p.2 < h := by
  unfold gridList
  constructor
  · intro hp
    obtain ⟨y, hy, hp2⟩ := List.mem_flatMap.mp hp
    obtain ⟨x, hx, he⟩ := List.mem_map.mp hp2
    subst he
    rw [List.mem_range] at hx hy
    refine ⟨?_, ?_, ?_, ?_⟩ <;> dsimp only <;> omega
  · rintro ⟨h1, h2, h3, h4⟩
    refine List.mem_flatMap.mpr ⟨p.2.toNat, ?_, List.mem_map.mpr ⟨p.1.toNat, ?_, ?_⟩⟩
    · rw [List.mem_range]; omega
    · rw [List.mem_range]; omega
    · rw [Int.toNat_of_nonneg h1, Int.toNat_of_nonneg h3]

theorem gridList_nodup (w h : ℕ) : (gridList w h).Nodup := by
  unfold gridList
  rw [List.nodup_flatMap]
  constructor
  · intro y _
    refine List.Nodup.map ?_ (List.nodup_range w)
    intro a b hab
    have := congrArg Prod.fst hab
    simpa using this
  · refine List.Pairwise.imp ?_ (List.pairwise_lt_range h)
    intro a b hab
    simp only [Function.onFun, List.disjoint_left]
    intro q hq1 hq2
    simp only [List.mem_map, List.mem_range] at hq1 hq2
    obtain ⟨x1, _, rfl⟩ := hq1
    obtain ⟨x2, _, he⟩ := hq2
    have h2 := congrArg Prod.snd he
    simp only at h2
    have : a = b := by exact_mod_cast h2.symm
    omega

theorem mem_floorTiles (wd : World) (p : Pos) :
    p ∈ floorTiles wd ↔ p ∈ walkableSet wd := by
  unfold floorTiles walkableSet
  rw [List.mem_filter, Finset.mem_filter, mem_gridList, mem_gridPositions]
  unfold inGrid
  simp only [decide_eq_true_eq]

theorem floorTiles_length (wd : World) :
    (floorTiles wd).length = (walkableSet wd).card := by
  have hnd : (floorTiles wd).Nodup :=
    (gridList_nodup wd.width wd.height).filter _
  have : (floorTiles wd).toFinset = walkableSet wd := by
    apply Finset.ext
    intro p
    rw [List.mem_toFinset, mem_floorTiles]
  rw [← this, List.toFinset_card_of_nodup hnd]

/-- All walkable tiles are strictly interior (they sit inside the 1-tile
buffer).  This holds for every grid the generator builds — rooms are carved
within the buffer and doors reopen former floor tiles — and it is what
keeps the flood fill away from the wrapping branch of Python indexing. -/
def InteriorWalk (wd : World) : Prop :=
  ∀ p ∈ walkableSet wd,
    1 ≤ p.1 ∧ p.1 < (wd.width : ℤ) - 1 ∧ 1 ≤ p.2 ∧ p.2 < (wd.height : ℤ) - 1

instance (wd : World) : Decidable (InteriorWalk wd) := by
  unfold InteriorWalk; infer_instance

/-- 4-directional adjacency restricted to walkable tiles. -/
def adjW (wd : World) (p q : Pos) : Prop :=
  p ∈ walkableSet wd ∧ q ∈ walkableSet wd ∧
  ∃ d ∈ floodOffsets, q = (p.1 + d.1, p.2 + d.2)

/-- Reachability inside the walkable region. -/
def ReachW (wd : World) : Pos → Pos → Prop := Relation.ReflTransGen (adjW wd)

theorem mem_walkableSet_iff (wd : World) (p : Pos) :
    p ∈ walkableSet wd ↔ inGrid wd p.1 p.2 ∧ (wd.tiles p).is_walkable = true := by
  unfold walkableSet
  rw [Finset.mem_filter, mem_gridPositions]

theorem floodOffsets_cases (d : ℤ × ℤ) (hd : d ∈ floodOffsets) :
    d = (-1, 0) ∨ d = (0, -1) ∨ d = (1, 0) ∨ d = (0, 1) := by
  simpa [floodOffsets] using hd

theorem wnbr_eq_of_interior (wd : World) (hint : InteriorWalk wd) (p : Pos)
    (hp : p ∈ walkableSet wd) (d : ℤ × ℤ) (hd : d ∈ floodOffsets) :
    wnbr wd p d = (p.1 + d.1, p.2 + d.2) := by
  have hpi := hint p hp
  have hb : -1 ≤ d.1 ∧ d.1 ≤ 1 ∧ -1 ≤ d.2 ∧ d.2 ≤ 1 := by
    rcases floodOffsets_cases d hd with rfl | rfl | rfl | rfl <;>
      exact ⟨by norm_num, by norm_num, by norm_num, by norm_num⟩
  unfold wnbr
  rw [pyIdx_eq_of_inRange _ _ (by omega) (by omega),
      pyIdx_eq_of_inRange _ _ (by omega) (by omega)]

theorem wnbr_mem_walkableSet (wd : World) (p : Pos) (d : ℤ × ℤ)
    (hp : p ∈ walkableSet wd)
    (hw : (wd.tiles (wnbr wd p d)).is_walkable = true) :
    wnbr wd p d ∈ walkableSet wd := by
  have hpg := ((mem_walkableSet_iff wd p).mp hp).1
  obtain ⟨g1, g2, g3, g4⟩ := hpg
  have hww : 0 < wd.width := by omega
  have hhh : 0 < wd.height := by omega
  rw [mem_walkableSet_iff]
  refine ⟨⟨?_, ?_, ?_, ?_⟩, hw⟩
  · exact (pyIdx_mem wd.width hww _).1
  · exact (pyIdx_mem wd.width hww _).2
  · exact (pyIdx_mem wd.height hhh _).1
  · exact (pyIdx_mem wd.height hhh _).2

theorem adjW_symm (wd : World) : Symmetric (adjW wd) := by
  rintro p q ⟨hp, hq, d, hd, heq⟩
  subst heq
  refine ⟨hq, hp, (-d.1, -d.2), ?_, ?_⟩
  · rcases floodOffsets_cases d hd with rfl | rfl | rfl | rfl <;> decide
  · rw [Prod.ext_iff]
    constructor <;> dsimp only <;> ring

theorem ReachW_symm (wd : World) : Symmetric (ReachW wd) :=
  Relation.ReflTransGen.symmetric (adjW_symm wd)

theorem mem_pushNbrs_aux (wd : World) (vis : Finset Pos) (p : Pos) :
    ∀ (l : List (ℤ × ℤ)) (st : List Pos) (q : Pos),
      q ∈ l.foldl
        (fun st d =>
          let q := wnbr wd p d
          if (wd.tiles q).is_walkable = true ∧ q ∉ vis then q :: st else st)
        st ↔
      q ∈ st ∨ ∃ d ∈ l,
        ((wd.tiles (wnbr wd p d)).is_walkable = true ∧ wnbr wd p d ∉ vis) ∧
        q = wnbr wd p d := by
  intro l
  induction l with
  | nil => intro st q; simp
  | cons a rest ih =>
    intro st q
    rw [List.foldl_cons]
    dsimp only
    by_cases hc : (wd.tiles (wnbr wd p a)).is_walkable = true ∧ wnbr wd p a ∉ vis
    · rw [if_pos hc, ih]
      constructor
      · rintro (hin | hrest)
        · rcases List.mem_cons.mp hin with rfl | hin2
          · exact Or.inr ⟨a, List.mem_cons_self a rest, hc, rfl⟩
          · exact Or.inl hin2
        · obtain ⟨d, hd, hcd, rfl⟩ := hrest
          exact Or.inr ⟨d, List.mem_cons_of_mem a hd, hcd, rfl⟩
      · rintro (hin | hrest)
        · exact Or.inl (List.mem_cons_of_mem _ hin)
        · obtain ⟨d, hd, hcd, rfl⟩ := hrest
          rcases List.mem_cons.mp hd with rfl | hd2
          · exact Or.inl (List.mem_cons_self _ _)
          · exact Or.inr ⟨d, hd2, hcd, rfl⟩
    · rw [if_neg hc, ih]
      constructor
      · rintro (hin | hrest)
        · exact Or.inl hin
        · obtain ⟨d, hd, hcd, rfl⟩ := hrest
          exact Or.inr ⟨d, List.mem_cons_of_mem a hd, hcd, rfl⟩
      · rintro (hin | hrest)
        · exact Or.inl hin
        · obtain ⟨d, hd, hcd, rfl⟩ := hrest
          rcases List.mem_cons.mp hd with rfl | hd2
          · exact absurd hcd hc
          · exact Or.inr ⟨d, hd2, hcd, rfl⟩

theorem mem_pushNbrs (wd : World) (vis : Finset Pos) (p : Pos)
    (st : List Pos) (q : Pos) :
    q ∈ pushNbrs wd vis p st ↔
      q ∈ st ∨ ∃ d ∈ floodOffsets,
        ((wd.tiles (wnbr wd p d)).is_walkable = true ∧ wnbr wd p d ∉ vis) ∧
        q = wnbr wd p d :=
  mem_pushNbrs_aux wd vis p floodOffsets st q

theorem pushNbrs_length_aux (wd : World) (vis : Finset Pos) (p : Pos) :
    ∀ (l : List (ℤ × ℤ)) (st : List Pos),
      (l.foldl
        (fun st d =>
          let q := wnbr wd p d
          if (wd.tiles q).is_walkable = true ∧ q ∉ vis then q :: st else st)
        st).length ≤ st.length + l.length := by
  intro l
  induction l with
  | nil => intro st; simp
  | cons a rest ih =>
    intro st
    rw [List.foldl_cons]
    dsimp only
    by_cases hc : (wd.tiles (wnbr wd p a)).is_walkable = true ∧ wnbr wd p a ∉ vis
    · rw [if_pos hc]
      have := ih (wnbr wd p a :: st)
      simp only [List.length_cons] at this ⊢
      omega
    · rw [if_neg hc]
      have := ih st
      simp only [List.length_cons] at this ⊢
      omega

theorem pushNbrs_length (wd : World) (vis : Finset Pos) (p : Pos)
    (st : List Pos) : (pushNbrs wd vis p st).length ≤ st.length + 4 :=
  pushNbrs_length_aux wd vis p floodOffsets st

theorem floodLoop_count (wd : World) :
    ∀ (fuel : ℕ) (stack : List Pos) (visited : Finset Pos) (count : ℕ)
      (V : Finset Pos) (c : ℕ),
      floodLoop wd fuel stack visited count = some (V, c) →
      visited ⊆ V ∧ c + visited.card = count + V.card := by
  intro fuel
  induction fuel with
  | zero =>
    intro stack visited count V c h
    rw [floodLoop] at h
    exact absurd h (by simp)
  | succ n ih =>
    intro stack visited count V c h
    cases stack with
    | nil =>
      rw [floodLoop, Option.some.injEq, Prod.mk.injEq] at h
      obtain ⟨rfl, rfl⟩ := h
      exact ⟨Finset.Subset.refl _, rfl⟩
    | cons p rest =>
      rw [floodLoop] at h
      by_cases hp : p ∈ visited
      · rw [if_pos hp] at h
        exact ih rest visited count V c h
      · rw [if_neg hp] at h
        dsimp only at h
        have hr := ih _ _ _ _ _ h
        refine ⟨fun q hq => hr.1 (Finset.mem_insert_of_mem hq), ?_⟩
        have hcard : (insert p visited).card = visited.card + 1 :=
          Finset.card_insert_of_not_mem hp
        omega

theorem floodLoop_sound (wd : World) (hint : InteriorWalk wd) (s0 : Pos) :
    ∀ (fuel : ℕ) (stack : List Pos) (visited : Finset Pos) (count : ℕ)
      (V : Finset Pos) (c : ℕ),
      (∀ q ∈ stack, q ∈ walkableSet wd ∧ ReachW wd s0 q) →
      (∀ q ∈ visited, q ∈ walkableSet wd ∧ ReachW wd s0 q) →
      floodLoop wd fuel stack visited count = some (V, c) →
      ∀ q ∈ V, q ∈ walkableSet wd ∧ ReachW wd s0 q := by
  intro fuel
  induction fuel with
  | zero =>
    intro stack visited count V c _ _ h
    rw [floodLoop] at h
    exact absurd h (by simp)
  | succ n ih =>
    intro stack visited count V c hstk hvis h
    cases stack with
    | nil =>
      rw [floodLoop, Option.some.injEq, Prod.mk.injEq] at h
      obtain ⟨rfl, rfl⟩ := h
      exact hvis
    | cons p rest =>
      rw [floodLoop] at h
      by_cases hp : p ∈ visited
      · rw [if_pos hp] at h
        exact ih rest visited count V c
          (fun q hq => hstk q (List.mem_cons_of_mem _ hq)) hvis h
      · rw [if_neg hp] at h
        dsimp only at h
        have hpw := hstk p (List.mem_cons_self _ _)
        refine ih _ _ _ _ _ ?_ ?_ h
        · intro q hq
          rcases (mem_pushNbrs wd _ p rest q).mp hq with hq2 | ⟨d, hd, ⟨hw, _⟩, rfl⟩
          · exact hstk q (List.mem_cons_of_mem _ hq2)
          · have hqw : wnbr wd p d ∈ walkableSet wd :=
              wnbr_mem_walkableSet wd p d hpw.1 hw
            have hadj : adjW wd p (wnbr wd p d) :=
              ⟨hpw.1, hqw, d, hd, (wnbr_eq_of_interior wd hint p hpw.1 d hd).symm ▸ rfl⟩
            exact ⟨hqw, Relation.ReflTransGen.tail hpw.2 hadj⟩
        · intro q hq
          rcases Finset.mem_insert.mp hq with rfl | hq2
          · exact hpw
          · exact hvis q hq2

theorem floodLoop_closure (wd : World) :
    ∀ (fuel : ℕ) (stack : List Pos) (visited : Finset Pos) (count : ℕ)
      (V : Finset Pos) (c : ℕ),
      (∀ p ∈ visited, ∀ d ∈ floodOffsets,
        (wd.tiles (wnbr wd p d)).is_walkable = true →
        wnbr wd p d ∈ visited ∨ wnbr wd p d ∈ stack) →
      floodLoop wd fuel stack visited count = some (V, c) →
      ∀ p ∈ V, ∀ d ∈ floodOffsets,
        (wd.tiles (wnbr wd p d)).is_walkable = true → wnbr wd p d ∈ V := by
  intro fuel
  induction fuel with
  | zero =>
    intro stack visited count V c _ h
    rw [floodLoop] at h
    exact absurd h (by simp)
  | succ n ih =>
    intro stack visited count V c hinv h
    cases stack with
    | nil =>
      rw [floodLoop, Option.some.injEq, Prod.mk.injEq] at h
      obtain ⟨rfl, rfl⟩ := h
      intro p hp d hd hw
      rcases hinv p hp d hd hw with hin | hin
      · exact hin
      · exact absurd hin (List.not_mem_nil _)
    | cons p0 rest =>
      rw [floodLoop] at h
      by_cases hp0 : p0 ∈ visited
      · rw [if_pos hp0] at h
        refine ih rest visited count V c ?_ h
        intro p hp d hd hw
        rcases hinv p hp d hd hw with hin | hin
        · exact Or.inl hin
        · rcases List.mem_cons.mp hin with heq | hin2
          · rw [heq]; exact Or.inl hp0
          · exact Or.inr hin2
      · rw [if_neg hp0] at h
        dsimp only at h
        refine ih _ _ _ _ _ ?_ h
        intro p hp d hd hw
        rcases Finset.mem_insert.mp hp with rfl | hp2
        · by_cases hv : wnbr wd p d ∈ insert p visited
          · exact Or.inl hv
          · exact Or.inr ((mem_pushNbrs wd _ p rest _).mpr
              (Or.inr ⟨d, hd, ⟨hw, hv⟩, rfl⟩))
        · rcases hinv p hp2 d hd hw with hin | hin
          · exact Or.inl (Finset.mem_insert_of_mem hin)
          · rcases List.mem_cons.mp hin with heq | hin2
            · rw [heq]; exact Or.inl (Finset.mem_insert_self _ _)
            · exact Or.inr ((mem_pushNbrs wd _ p0 rest _).mpr (Or.inl hin2))

theorem floodLoop_total (wd : World) :
    ∀ (fuel : ℕ) (stack : List Pos) (visited : Finset Pos) (count : ℕ),
      (∀ q ∈ stack, q ∈ walkableSet wd) →
      5 * ((walkableSet wd \ visited).card) + stack.length < fuel →
      ∃ V c, floodLoop wd fuel stack visited count = some (V, c) := by
  intro fuel
  induction fuel with
  | zero => intro stack visited count _ hm; omega
  | succ n ih =>
    intro stack visited count hstk hm
    cases stack with
    | nil => exact ⟨visited, count, by rw [floodLoop]⟩
    | cons p rest =>
      by_cases hp : p ∈ visited
      · obtain ⟨V, c, h⟩ := ih rest visited count
          (fun q hq => hstk q (List.mem_cons_of_mem _ hq))
          (by simp only [List.length_cons] at hm; omega)
        exact ⟨V, c, by rw [floodLoop, if_pos hp]; exact h⟩
      · have hpw : p ∈ walkableSet wd := hstk p (List.mem_cons_self _ _)
        have hpin : p ∈ walkableSet wd \ visited :=
          Finset.mem_sdiff.mpr ⟨hpw, hp⟩
        have hcard : (walkableSet wd \ insert p visited).card =
            (walkableSet wd \ visited).card - 1 := by
          rw [Finset.sdiff_insert, Finset.card_erase_of_mem hpin]
        have hcpos : 0 < (walkableSet wd \ visited).card :=
          Finset.card_pos.mpr ⟨p, hpin⟩
        have hlen := pushNbrs_length wd (insert p visited) p rest
        obtain ⟨V, c, h⟩ := ih (pushNbrs wd (insert p visited) p rest)
          (insert p visited) (count + 1)
          (by
            intro q hq
            rcases (mem_pushNbrs wd _ p rest q).mp hq with hq2 | ⟨d, _, ⟨hw, _⟩, rfl⟩
            · exact hstk q (List.mem_cons_of_mem _ hq2)
            · exact wnbr_mem_walkableSet wd p d hpw hw)
          (by simp only [List.length_cons] at hm; omega)
        exact ⟨V, c, by rw [floodLoop, if_neg hp]; exact h⟩

theorem gridPositions_card (wd : World) :
    (gridPositions wd).card = wd.width * wd.height := by
  unfold gridPositions
  rw [Finset.card_product, Int.card_Ico]
  simp

theorem walkableSet_card_le (wd : World) :
    (walkableSet wd).card ≤ wd.width * wd.height := by
  rw [← gridPositions_card]
  exact Finset.card_le_card (Finset.filter_subset _ _)

/-- With every walkable tile in-grid, the canonical fuel is enough, and the
flood fill from a walkable start visits a subset of the walkable tiles that
contains the start, counts itself exactly, reaches only reachable tiles and
is closed under walkable adjacency. -/
theorem floodFrom_correct (wd : World) (hint : InteriorWalk wd) (p0 : Pos)
    (hp0 : p0 ∈ walkableSet wd) :
    ∃ V c, floodFrom wd p0 = some (V, c) ∧ V ⊆ walkableSet wd ∧ p0 ∈ V ∧
      c = V.card ∧ (∀ q ∈ V, ReachW wd p0 q) ∧
      (∀ p ∈ V, ∀ d ∈ floodOffsets,
        (wd.tiles (wnbr wd p d)).is_walkable = true → wnbr wd p d ∈ V) := by
  have hstk : ∀ q ∈ [p0], q ∈ walkableSet wd := by
    intro q hq
    rcases List.mem_singleton.mp hq with rfl
    exact hp0
  have hmeas : 5 * ((walkableSet wd \ ∅).card) + [p0].length < floodFuel wd := by
    have h1 : (walkableSet wd \ ∅).card ≤ wd.width * wd.height := by
      rw [Finset.sdiff_empty]
      exact walkableSet_card_le wd
    unfold floodFuel
    simp only [List.length_singleton]
    omega
  obtain ⟨V, c, hV⟩ := floodLoop_total wd (floodFuel wd) [p0] ∅ 0 hstk hmeas
  have hcount := floodLoop_count wd _ _ _ _ _ _ hV
  have hsound := floodLoop_sound wd hint p0 _ _ _ _ _ _
    (fun q hq => by rcases List.mem_singleton.mp hq with rfl
                    exact ⟨hp0, Relation.ReflTransGen.refl⟩)
    (fun q hq => absurd hq (Finset.not_mem_empty q)) hV
  have hclosed := floodLoop_closure wd _ _ _ _ _ _
    (fun p hp => absurd hp (Finset.not_mem_empty p)) hV
  have hmem : p0 ∈ V := by
    obtain ⟨n, hn⟩ : ∃ n, floodFuel wd = n + 1 :=
      ⟨5 * (wd.width * wd.height) + 1, rfl⟩
    have hV2 : floodLoop wd n (pushNbrs wd (insert p0 ∅) p0 []) (insert p0 ∅) 1 =
        some (V, c) := by
      rw [hn, floodLoop, if_neg (Finset.not_mem_empty p0)] at hV
      exact hV
    exact (floodLoop_count wd _ _ _ _ _ _ hV2).1 (Finset.mem_insert_self p0 ∅)
  refine ⟨V, c, hV, fun q hq => (hsound q hq).1, hmem, ?_,
    fun q hq => (hsound q hq).2, hclosed⟩
  have := hcount.2
  simp only [Finset.card_empty] at this
  omega

theorem pathable_true_spec (wd : World) (fs : ℤ)
    (h : pathable wd fs = Except.ok true) :
    ∃ V c, floodRun wd = some (V, c) ∧ c = (floorTiles wd).length ∧
      (c : ℤ) = fs := by
  unfold pathable at h
  cases hrun : floodRun wd with
  | none => rw [hrun] at h; exact absurd h (by simp)
  | some vc =>
    obtain ⟨V, c⟩ := vc
    rw [hrun] at h
    dsimp only at h
    by_cases hcond : c = (floorTiles wd).length ∧ (c : ℤ) ≠ fs
    · rw [if_pos hcond] at h
      exact absurd h (by simp)
    · rw [if_neg hcond] at h
      rw [Except.ok.injEq, decide_eq_true_eq] at h
      refine ⟨V, c, rfl, h, ?_⟩
      by_contra hne
      exact hcond ⟨h, hne⟩

theorem pathable_error_of_mismatch (wd : World) (fs : ℤ) (V : Finset Pos)
    (c : ℕ) (hrun : floodRun wd = some (V, c))
    (hlen : c = (floorTiles wd).length) (hne : (c : ℤ) ≠ fs) :
    ∃ msg, pathable wd fs = Except.error msg := by
  unfold pathable
  rw [hrun]
  dsimp only
  rw [if_pos ⟨hlen, hne⟩]
  exact ⟨_, rfl⟩

/-! ## Claim C4 -/

/-- C4: for every accepted attempt the incrementally maintained floor-space
counter equals the true count of walkable tiles at validation time
(`pathable` returning `ok true` forces the counter to equal the flood-fill
count, which equals the number of floor tiles); and whenever the flood fill
reports the grid pathable (visited count = number of floor tiles) but that
count disagrees with the counter, `pathable` raises the diagnostic
exception instead of returning a result. -/
theorem C4_floor_space_accounting :
    (∀ (wd : World) (fs : ℤ), pathable wd fs = Except.ok true →
      fs = ((walkableSet wd).card : ℤ)) ∧
    (∀ (wd : World) (fs : ℤ) (V : Finset Pos) (c : ℕ),
      floodRun wd = some (V, c) → c = (floorTiles wd).length →
      (c : ℤ) ≠ fs → ∃ msg, pathable wd fs = Except.error msg) := by
  constructor
  · intro wd fs h
    obtain ⟨V, c, _, hlen, hfs⟩ := pathable_true_spec wd fs h
    rw [← hfs, hlen, floorTiles_length]
  · intro wd fs V c h1 h2 h3
    exact pathable_error_of_mismatch wd fs V c h1 h2 h3

/-- A 4×4 world with the connected walkable L (1,1)-(1,2)-(2,2). -/
def pw4 : World :=
  { width := 4, height := 4, tiles := fun p =>
      if p = ((1 : ℤ), (1 : ℤ)) ∨ p = ((1 : ℤ), (2 : ℤ)) ∨ p = ((2 : ℤ), (2 : ℤ))
      then { Tile.init with is_walkable := true }
      else Tile.init }

/-- Witness for C4: on `pw4` with the correct counter 3, validation accepts
and the counter equals the true walkable count; with the wrong counter 4 it
raises. -/
theorem C4_floor_space_accounting_witness :
    ((3 : ℤ) = ((walkableSet pw4).card : ℤ)) ∧
    (∃ msg, pathable pw4 4 = Except.error msg) :=
  ⟨C4_floor_space_accounting.1 pw4 3 (by rfl),
   C4_floor_space_accounting.2 pw4 4
     (insert ((2 : ℤ), (2 : ℤ)) (insert ((1 : ℤ), (2 : ℤ))
       (insert ((1 : ℤ), (1 : ℤ)) (∅ : Finset Pos)))) 3
     (by decide) (by decide) (by decide)⟩

/-! ## Claim C1 -/

theorem reach_subset_closed (wd : World) (hint : InteriorWalk wd) (p : Pos)
    (S : Finset Pos) (hp : p ∈ S)
    (hcl : ∀ q ∈ S, ∀ d ∈ floodOffsets,
      (wd.tiles (wnbr wd q d)).is_walkable = true → wnbr wd q d ∈ S) :
    ∀ u, ReachW wd p u → u ∈ S := by
  intro u hr
  induction hr with
  | refl => exact hp
  | @tail b c hr2 hadj ih =>
    obtain ⟨hbW, hcW, d, hd, heq⟩ := hadj
    have hwn := wnbr_eq_of_interior wd hint b hbW d hd
    have hcw : (wd.tiles (wnbr wd b d)).is_walkable = true := by
      rw [hwn, ← heq]
      exact ((mem_walkableSet_iff wd c).mp hcW).2
    have hres := hcl b ih d hd hcw
    rwa [hwn, ← heq] at hres

/-- C1: every grid accepted by `try_generation` is fully pathable and meets
the floor-space requirement.  First conjunct: the retry loop only breaks
(accepts) when `pathable` returned true without raising and the floor space
meets the requirement.  Second conjunct: for such a grid (whose walkable
tiles, as in every generated grid, all lie strictly inside the border), a
flood fill started from any walkable tile visits exactly the set of all
walkable tiles — the floor is one 4-connected region — and the number of
walkable tiles is at least the requirement. -/
theorem C1_accepted_grid_connected :
    (∀ (fuel : ℕ) (mt req : ℤ) (s0 s : GenState),
      tryGenLoop fuel mt req s0 = TGResult.accepted s →
      pathable s.world s.floor_space = Except.ok true ∧
      req ≤ s.floor_space) ∧
    (∀ (wd : World) (fs req : ℤ), InteriorWalk wd →
      pathable wd fs = Except.ok true → req ≤ fs →
      (∀ p ∈ walkableSet wd, ∃ V c, floodFrom wd p = some (V, c) ∧
        V = walkableSet wd ∧ c = (walkableSet wd).card) ∧
      req ≤ ((walkableSet wd).card : ℤ)) := by
  constructor
  · intro fuel
    induction fuel with
    | zero =>
      intro mt req s0 s h
      rw [tryGenLoop] at h
      exact absurd h (by simp)
    | succ n ih =>
      intro mt req s0 s h
      rw [tryGenLoop] at h
      split at h
      · dsimp only at h
        split at h
        · exact ih mt req _ s h
        · split at h
          · exact absurd h (by simp)
          · split at h
            · rename_i can_path hpath hacc
              rw [TGResult.accepted.injEq] at h
              subst h
              rw [← hacc.1]
              exact ⟨hpath, hacc.2⟩
            · exact ih mt req _ s h
      · exact absurd h (by simp)
  · intro wd fs req hint hpath hreq
    obtain ⟨V, c, hrun, hclen, hcfs⟩ := pathable_true_spec wd fs hpath
    have hlen := floorTiles_length wd
    cases hft : floorTiles wd with
    | nil =>
      have hW0 : (walkableSet wd).card = 0 := by rw [← hlen, hft]; rfl
      have hWempty : walkableSet wd = ∅ := Finset.card_eq_zero.mp hW0
      constructor
      · intro p hp
        rw [hWempty] at hp
        exact absurd hp (Finset.not_mem_empty p)
      · rw [hW0]
        rw [hft] at hclen
        simp only [List.length_nil] at hclen
        subst hclen
        simp only [Nat.cast_zero] at hcfs
        omega
    | cons t rest =>
      have ht : t ∈ walkableSet wd :=
        (mem_floorTiles wd t).mp (by rw [hft]; exact List.mem_cons_self t rest)
      have hrun2 : floodFrom wd t = some (V, c) := by
        unfold floodRun tileStack at hrun
        rw [hft] at hrun
        exact hrun
      obtain ⟨V0, c0, hV0run, hV0sub, htV0, hc0card, hV0reach, hV0closed⟩ :=
        floodFrom_correct wd hint t ht
      rw [hrun2, Option.some.injEq, Prod.mk.injEq] at hV0run
      obtain ⟨rfl, rfl⟩ := hV0run
      have hVW : V = walkableSet wd := by
        apply Finset.eq_of_subset_of_card_le hV0sub
        rw [← hc0card, hclen, hlen]
      have hreachAll : ∀ q ∈ walkableSet wd, ReachW wd t q := by
        intro q hq
        exact hV0reach q (by rw [hVW]; exact hq)
      constructor
      · intro p hp
        obtain ⟨Vp, cp, hpRun, hpSub, hpMem, hpCard, hpReach, hpClosed⟩ :=
          floodFrom_correct wd hint p hp
        have hWsub : walkableSet wd ⊆ Vp := by
          intro u hu
          have h3 : ReachW wd p u :=
            Relation.ReflTransGen.trans (ReachW_symm wd (hreachAll p hp))
              (hreachAll u hu)
          exact reach_subset_closed wd hint p Vp hpMem hpClosed u h3
        have hVp : Vp = walkableSet wd := Finset.Subset.antisymm hpSub hWsub
        exact ⟨Vp, cp, hpRun, hVp, by rw [hpCard, hVp]⟩
      · rw [← hlen, ← hclen]
        omega

/-- Witness for C1: on `pw4` with counter 3 and requirement 3 the attempt
is accepted, and a flood fill from each of the three walkable tiles visits
exactly the walkable set. -/
theorem C1_accepted_grid_connected_witness :
    (∀ p ∈ walkableSet pw4, ∃ V c, floodFrom pw4 p = some (V, c) ∧
      V = walkableSet pw4 ∧ c = (walkableSet pw4).card) ∧
    (3 : ℤ) ≤ ((walkableSet pw4).card : ℤ) :=
  C1_accepted_grid_connected.2 pw4 3 3 (by decide) (by rfl) (by norm_num)

/-! ## Claim C7 -/

theorem splitSpanAux_flatten (wd : World) :
    ∀ (l cur : List Pos),
      (splitSpanAux wd l cur).flatten =
        cur ++ l.filter (fun t => ! (wd.tiles t).is_span_connection) := by
  intro l
  induction l with
  | nil =>
    intro cur
    rw [splitSpanAux]
    by_cases hc : cur = []
    · rw [if_pos hc, hc]; rfl
    · rw [if_neg hc]; simp
  | cons t rest ih =>
    intro cur
    rw [splitSpanAux]
    by_cases hsc : (wd.tiles t).is_span_connection = true
    · rw [if_pos hsc]
      rw [List.flatten_append, ih []]
      by_cases hc : cur = []
      · rw [if_pos hc, hc]
        simp [List.filter_cons, hsc]
      · rw [if_neg hc]
        simp [List.filter_cons, hsc]
    · rw [if_neg hsc]
      rw [ih (cur ++ [t])]
      have hsc2 : (! (wd.tiles t).is_span_connection) = true := by
        cases hv : (wd.tiles t).is_span_connection
        · rfl
        · exact absurd hv hsc
      simp [List.filter_cons, hsc2]

theorem splitSpanAux_ne_nil (wd : World) :
    ∀ (l cur : List Pos) (sp : List Pos),
      sp ∈ splitSpanAux wd l cur → sp ≠ [] := by
  intro l
  induction l with
  | nil =>
    intro cur sp hsp
    rw [splitSpanAux] at hsp
    by_cases hc : cur = []
    · rw [if_pos hc] at hsp; exact absurd hsp (List.not_mem_nil sp)
    · rw [if_neg hc] at hsp
      rcases List.mem_singleton.mp hsp with rfl
      exact hc
  | cons t rest ih =>
    intro cur sp hsp
    rw [splitSpanAux] at hsp
    by_cases hsc : (wd.tiles t).is_span_connection = true
    · rw [if_pos hsc] at hsp
      rcases List.mem_append.mp hsp with h | h
      · by_cases hc : cur = []
        · rw [if_pos hc] at h; exact absurd h (List.not_mem_nil sp)
        · rw [if_neg hc] at h
          rcases List.mem_singleton.mp h with rfl
          exact hc
      · exact ih [] sp h
    · rw [if_neg hsc] at hsp
      exact ih (cur ++ [t]) sp hsp

theorem checkedSpans_flatten (wd : World) :
    ∀ spans : List (List Pos),
      (checkedSpans wd spans).flatten =
        spans.flatten.filter (fun t => ! (wd.tiles t).is_span_connection) := by
  intro spans
  induction spans with
  | nil => rfl
  | cons sp rest ih =>
    unfold checkedSpans at ih ⊢
    rw [List.flatMap_cons, List.flatten_append, ih, List.flatten_cons,
      List.filter_append, splitSpanAux_flatten wd sp []]
    rfl

theorem checkedSpans_ne_nil (wd : World) (spans : List (List Pos)) :
    ∀ sp ∈ checkedSpans wd spans, sp ≠ [] := by
  intro sp hsp
  unfold checkedSpans at hsp
  obtain ⟨sp0, _, h⟩ := List.mem_flatMap.mp hsp
  exact splitSpanAux_ne_nil wd sp0 [] sp h

theorem checkedSpans_mem (wd : World) (spans : List (List Pos)) (sp : List Pos)
    (hsp : sp ∈ checkedSpans wd spans) (q : Pos) (hq : q ∈ sp) :
    q ∈ spans.flatten := by
  have h1 : q ∈ (checkedSpans wd spans).flatten :=
    List.mem_flatten.mpr ⟨sp, hsp, hq⟩
  rw [checkedSpans_flatten wd spans] at h1
  exact List.mem_of_mem_filter h1

theorem checkedSpans_nodup (wd : World) (spans : List (List Pos))
    (h : spans.flatten.Nodup) : (checkedSpans wd spans).flatten.Nodup := by
  rw [checkedSpans_flatten wd spans]
  exact List.Nodup.filter _ h

/-- The index `random.choice` draws for the `i`-th doored span. -/
def doorIdx (rng : RNG) (i : ℕ) (sp : List Pos) : ℕ :=
  rng.stream (rng.idx + i) % sp.length

/-- The doorway tile of the `i`-th doored span. -/
def doorTile (rng : RNG) (i : ℕ) (sp : List Pos) : Pos :=
  sp.getD (doorIdx rng i sp) default

theorem doorLoop_spec :
    ∀ (P : List (List Pos)) (rng : RNG) (wd : World) (fs : ℤ),
      (∀ sp ∈ P, sp ≠ []) →
      P.flatten.Nodup →
      (∀ sp ∈ P, ∀ q ∈ sp, inGrid wd q.1 q.2 ∧
        (wd.tiles q).is_walkable = false ∧ (wd.tiles q).is_dividing_wall = true) →
      (doorLoop rng wd fs P).2.2 = fs + P.length ∧
      (doorLoop rng wd fs P).1.stream = rng.stream ∧
      (doorLoop rng wd fs P).1.idx = rng.idx + P.length ∧
      (∀ q : Pos, (∀ sp ∈ P, q ∉ sp) →
        (doorLoop rng wd fs P).2.1.tiles q = wd.tiles q) ∧
      (∀ i, i < P.length →
        doorIdx rng i (P.getD i []) < (P.getD i []).length ∧
        doorTile rng i (P.getD i []) ∈ P.getD i [] ∧
        ((doorLoop rng wd fs P).2.1.tiles
          (doorTile rng i (P.getD i []))).is_walkable = true ∧
        ((doorLoop rng wd fs P).2.1.tiles
          (doorTile rng i (P.getD i []))).is_dividing_wall = false ∧
        (wd.tiles (doorTile rng i (P.getD i []))).is_walkable = false ∧
        (wd.tiles (doorTile rng i (P.getD i []))).is_dividing_wall = true ∧
        (∀ q ∈ P.getD i [],
          ((doorLoop rng wd fs P).2.1.tiles q).is_walkable = true →
          q = doorTile rng i (P.getD i []))) := by
  intro P
  induction P with
  | nil =>
    intro rng wd fs _ _ _
    refine ⟨by simp [doorLoop], rfl, by simp [doorLoop], fun q _ => rfl, ?_⟩
    intro i hi
    exact absurd hi (by simp)
  | cons sp rest ih =>
    intro rng wd fs HS Hnd Hmem
    have hspne : sp ≠ [] := HS sp (List.mem_cons_self sp rest)
    have hlenpos : 0 < sp.length := List.length_pos.mpr hspne
    set k := rng.draw.1 % sp.length with hkdef
    have hklt : k < sp.length := Nat.mod_lt _ hlenpos
    set p0 := sp.getD k default with hpdef
    have hp0mem : p0 ∈ sp := by
      rw [hpdef, List.getD_eq_getElem sp default hklt]
      exact List.getElem_mem hklt
    obtain ⟨hp0grid, hp0walk, hp0div⟩ :=
      Hmem sp (List.mem_cons_self sp rest) p0 hp0mem
    set t1 : Tile :=
      { wd.get p0.1 p0.2 with is_walkable := true, is_dividing_wall := false }
      with htdef
    set wd1 := wd.put p0.1 p0.2 t1 with hwdef
    have hstep : doorLoop rng wd fs (sp :: rest) =
        doorLoop rng.draw.2 wd1 (fs + 1) rest := by
      rw [doorLoop, if_neg hspne]
    have hflat : (sp ++ rest.flatten).Nodup := by
      rw [← List.flatten_cons]; exact Hnd
    obtain ⟨hnd_sp, hnd_rest, hdisj⟩ := List.nodup_append.mp hflat
    have hW1 : ∀ q ∈ rest.flatten, wd1.tiles q = wd.tiles q := by
      intro q hq
      refine World.put_tiles_ne_of_inGrid wd p0.1 p0.2 t1 hp0grid q ?_
      intro he
      have hqp : q = p0 := he
      rw [hqp] at hq
      exact hdisj hp0mem hq
    have hp0nrest : ∀ s ∈ rest, p0 ∉ s := by
      intro s hs hin
      exact hdisj hp0mem (List.mem_flatten.mpr ⟨s, hs, hin⟩)
    have HS2 : ∀ s ∈ rest, s ≠ [] := fun s hs => HS s (List.mem_cons_of_mem _ hs)
    have Hmem2 : ∀ s ∈ rest, ∀ q ∈ s, inGrid wd1 q.1 q.2 ∧
        (wd1.tiles q).is_walkable = false ∧
        (wd1.tiles q).is_dividing_wall = true := by
      intro s hs q hq
      have hqf : q ∈ rest.flatten := List.mem_flatten.mpr ⟨s, hs, hq⟩
      have hm := Hmem s (List.mem_cons_of_mem _ hs) q hq
      rw [hW1 q hqf]
      exact hm
    obtain ⟨ia, ib, ic, ifr, ie⟩ := ih rng.draw.2 wd1 (fs + 1) HS2 hnd_rest Hmem2
    have hp0after : (doorLoop rng.draw.2 wd1 (fs + 1) rest).2.1.tiles p0 = t1 := by
      rw [ifr p0 hp0nrest]
      show (wd.put p0.1 p0.2 t1).tiles p0 = t1
      have := World.put_tiles_same wd p0.1 p0.2 t1 hp0grid
      exact this
    rw [hstep]
    refine ⟨?_, ?_, ?_, ?_, ?_⟩
    · rw [ia, List.length_cons]
      push_cast
      ring
    · exact ib.trans rfl
    · rw [ic]
      have hdi : rng.draw.2.idx = rng.idx + 1 := rfl
      rw [hdi, List.length_cons]
      omega
    · intro q hq
      rw [ifr q (fun s hs => hq s (List.mem_cons_of_mem _ hs))]
      refine World.put_tiles_ne_of_inGrid wd p0.1 p0.2 t1 hp0grid q ?_
      intro he
      have hqp : q = p0 := he
      rw [hqp] at hq
      exact hq sp (List.mem_cons_self sp rest) hp0mem
    · intro i hi
      cases i with
      | zero =>
        have hgd : (sp :: rest).getD 0 [] = sp := rfl
        have hdi0 : doorIdx rng 0 sp = k := by
          unfold doorIdx
          rw [Nat.add_zero]
          rfl
        have hdt0 : doorTile rng 0 sp = p0 := by
          unfold doorTile
          rw [hdi0]
        rw [hgd, hdi0, hdt0]
        refine ⟨hklt, hp0mem, ?_, ?_, hp0walk, hp0div, ?_⟩
        · rw [hp0after]
        · rw [hp0after]
        · intro q hq hqw
          by_cases hqe : q = p0
          · exact hqe
          · exfalso
            have hq1 : (doorLoop rng.draw.2 wd1 (fs + 1) rest).2.1.tiles q =
                wd1.tiles q := by
              refine ifr q ?_
              intro s hs hin
              exact hdisj hq (List.mem_flatten.mpr ⟨s, hs, hin⟩)
            have hq2 : wd1.tiles q = wd.tiles q := by
              refine World.put_tiles_ne_of_inGrid wd p0.1 p0.2 t1 hp0grid q ?_
              intro he
              exact hqe he
            rw [hq1, hq2] at hqw
            rw [(Hmem sp (List.mem_cons_self sp rest) q hq).2.1] at hqw
            exact Bool.false_ne_true hqw
      | succ j =>
        have hj : j < rest.length := by
          rw [List.length_cons] at hi
          omega
        have hgd : (sp :: rest).getD (j + 1) [] = rest.getD j [] := rfl
        have hidx : doorIdx rng (j + 1) (rest.getD j []) =
            doorIdx rng.draw.2 j (rest.getD j []) := by
          unfold doorIdx
          rw [show rng.idx + (j + 1) = rng.idx + 1 + j from by omega]
          rfl
        have htile : doorTile rng (j + 1) (rest.getD j []) =
            doorTile rng.draw.2 j (rest.getD j []) := by
          unfold doorTile
          rw [hidx]
        obtain ⟨ja, jb, jc, jd, je, jf, jg⟩ := ie j hj
        have hdoorflat : doorTile rng.draw.2 j (rest.getD j []) ∈ rest.flatten := by
          refine List.mem_flatten.mpr ⟨rest.getD j [], ?_, jb⟩
          rw [List.getD_eq_getElem rest [] hj]
          exact List.getElem_mem hj
        rw [hgd, hidx, htile]
        refine ⟨ja, jb, jc, jd, ?_, ?_, jg⟩
        · rw [← hW1 _ hdoorflat]
          exact je
        · rw [← hW1 _ hdoorflat]
          exact jf

/-- C7: run on carving output (distinct span tiles, each a non-walkable
dividing wall on the grid), `add_doors` gives every non-empty final wall
span — the pieces obtained by splitting each carved span at its
span-connection tiles — exactly one walkable doorway tile: the tile the
uniform draw selects (`span[draw mod len]`, the `i`-th span consuming the
`i`-th draw), which immediately before was a non-walkable dividing-wall
tile of that span; every other tile of the span stays non-walkable, and
the floor-space counter grows by exactly one per doored span. -/
theorem C7_span_doorways (rng : RNG) (wd : World) (fs : ℤ)
    (spans : List (List Pos))
    (Hmem : ∀ sp ∈ spans, ∀ q ∈ sp, inGrid wd q.1 q.2 ∧
      (wd.tiles q).is_walkable = false ∧ (wd.tiles q).is_dividing_wall = true)
    (Hnodup : spans.flatten.Nodup) :
    (addDoors rng wd fs spans).2.2 = fs + (checkedSpans wd spans).length ∧
    (∀ sp ∈ checkedSpans wd spans, sp ≠ []) ∧
    (∀ i, i < (checkedSpans wd spans).length →
      doorIdx rng i ((checkedSpans wd spans).getD i []) <
        ((checkedSpans wd spans).getD i []).length ∧
      doorTile rng i ((checkedSpans wd spans).getD i []) ∈
        (checkedSpans wd spans).getD i [] ∧
      ((addDoors rng wd fs spans).2.1.tiles
        (doorTile rng i ((checkedSpans wd spans).getD i []))).is_walkable = true ∧
      ((addDoors rng wd fs spans).2.1.tiles
        (doorTile rng i ((checkedSpans wd spans).getD i []))).is_dividing_wall
        = false ∧
      (wd.tiles (doorTile rng i ((checkedSpans wd spans).getD i []))).is_walkable
        = false ∧
      (wd.tiles
        (doorTile rng i ((checkedSpans wd spans).getD i []))).is_dividing_wall
        = true ∧
      (∀ q ∈ (checkedSpans wd spans).getD i [],
        ((addDoors rng wd fs spans).2.1.tiles q).is_walkable = true →
        q = doorTile rng i ((checkedSpans wd spans).getD i []))) := by
  have HS : ∀ sp ∈ checkedSpans wd spans, sp ≠ [] := checkedSpans_ne_nil wd spans
  have Hnd : (checkedSpans wd spans).flatten.Nodup :=
    checkedSpans_nodup wd spans Hnodup
  have Hm : ∀ sp ∈ checkedSpans wd spans, ∀ q ∈ sp, inGrid wd q.1 q.2 ∧
      (wd.tiles q).is_walkable = false ∧ (wd.tiles q).is_dividing_wall = true := by
    intro sp hsp q hq
    have hqf := checkedSpans_mem wd spans sp hsp q hq
    obtain ⟨sp0, hsp0, hq0⟩ := List.mem_flatten.mp hqf
    exact Hmem sp0 hsp0 q hq0
  obtain ⟨ha, hb, hc, _, he⟩ :=
    doorLoop_spec (checkedSpans wd spans) rng wd fs HS Hnd Hm
  exact ⟨ha, HS, he⟩

/-- A 6×6 world with a 3-tile dividing wall at (1,2)-(3,2). -/
def wallWorld : World :=
  { width := 6, height := 6, tiles := fun p =>
      if p = ((1 : ℤ), (2 : ℤ)) ∨ p = ((2 : ℤ), (2 : ℤ)) ∨ p = ((3 : ℤ), (2 : ℤ))
      then { Tile.init with is_dividing_wall := true }
      else Tile.init }

/-- The three-tile span carved into `wallWorld`. -/
def wallSpan : List Pos := [(1, 2), (2, 2), (3, 2)]

/-- Witness for C7 on `wallWorld`: one span of three dividing-wall tiles
receives exactly one door and the counter goes from 10 to 11. -/
theorem C7_span_doorways_witness :
    (addDoors { stream := fun _ => 0, idx := 0 } wallWorld 10 [wallSpan]).2.2 =
      10 + (checkedSpans wallWorld [wallSpan]).length ∧
    (∀ sp ∈ checkedSpans wallWorld [wallSpan], sp ≠ []) ∧
    (∀ i, i < (checkedSpans wallWorld [wallSpan]).length →
      doorIdx { stream := fun _ => 0, idx := 0 } i
        ((checkedSpans wallWorld [wallSpan]).getD i []) <
        ((checkedSpans wallWorld [wallSpan]).getD i []).length ∧
      doorTile { stream := fun _ => 0, idx := 0 } i
        ((checkedSpans wallWorld [wallSpan]).getD i []) ∈
        (checkedSpans wallWorld [wallSpan]).getD i [] ∧
      ((addDoors { stream := fun _ => 0, idx := 0 } wallWorld 10
          [wallSpan]).2.1.tiles
        (doorTile { stream := fun _ => 0, idx := 0 } i
          ((checkedSpans wallWorld [wallSpan]).getD i []))).is_walkable = true ∧
      ((addDoors { stream := fun _ => 0, idx := 0 } wallWorld 10
          [wallSpan]).2.1.tiles
        (doorTile { stream := fun _ => 0, idx := 0 } i
          ((checkedSpans wallWorld [wallSpan]).getD i []))).is_dividing_wall
        = false ∧
      (wallWorld.tiles
        (doorTile { stream := fun _ => 0, idx := 0 } i
          ((checkedSpans wallWorld [wallSpan]).getD i []))).is_walkable
        = false ∧
      (wallWorld.tiles
        (doorTile { stream := fun _ => 0, idx := 0 } i
          ((checkedSpans wallWorld [wallSpan]).getD i []))).is_dividing_wall
        = true ∧
      (∀ q ∈ (checkedSpans wallWorld [wallSpan]).getD i [],
        ((addDoors { stream := fun _ => 0, idx := 0 } wallWorld 10
            [wallSpan]).2.1.tiles q).is_walkable = true →
        q = doorTile { stream := fun _ => 0, idx := 0 } i
          ((checkedSpans wallWorld [wallSpan]).getD i []))) :=
  C7_span_doorways { stream := fun _ => 0, idx := 0 } wallWorld 10 [wallSpan]
    (by decide) (by decide)

/-- Witness for C3: the invariants hold for a concrete 40×40 run, and the
candidate (0, 0, 5, 5) — which fails the buffered bounds check — is
silently rejected, leaving the state untouched. -/
theorem C3_committed_room_invariants_witness :
    (∀ r ∈ (addRooms (initState 40 40 fun _ => 0)).rooms,
      0 < r.x ∧ r.x + r.width < r.world_width - 1 ∧
      0 < r.y ∧ r.y + r.height < r.world_height - 1) ∧
    tryBudding (initState 40 40 fun _ => 0) ⟨0, 0, 5, 5, 40, 40⟩ Axis.Y =
      initState 40 40 (fun _ => 0) :=
  ⟨(C3_committed_room_invariants 40 40 fun _ => 0).1,
   (C3_committed_room_invariants 40 40 fun _ => 0).2.2
     (initState 40 40 fun _ => 0) ⟨0, 0, 5, 5, 40, 40⟩ Axis.Y
     (Or.inl (by decide))⟩
